import Mathlib

/-!
# Verification of the UTXO storage layer (`src/txdb.cpp`)

This file gives a shallow embedding of the persistent UTXO view of the
repository (`CCoinsViewDB` and its helpers in `src/txdb.cpp`) and proves
properties of the commit protocol (`BatchWrite`), the two-tier lookup
(`GetCoin` / `HaveCoin` with the loaded-coin overlay), the legacy-format
migration (`Upgrade`), the coin-key codec (`CoinEntry`), and the
loaded-coin file import/export (`ReadLoadedCoins` / `WriteMyLoadedCoins`).

Hashes (`uint256`) are modelled as natural numbers, with `0` playing the
role of the null hash.  The ordered key-value engine underneath
(`CDBWrapper`) is modelled as an association list of typed keys and
values; a `CDBBatch` is a list of write/erase operations applied in
order.
-/

namespace TxDB

/-- `COutPoint` (primitives/transaction.h): a transaction hash and an
output index, the identity of one spendable output. -/
structure COutPoint where
  hash : Nat
  n : Nat
deriving DecidableEq, Repr

/-- Modelled from the spec: a transaction output (`CTxOut`).  The source
tree does not contain `primitives/transaction.h` / `script/script.h`, so
the value/script payload is kept as an opaque natural number, and the two
predicates on outputs that the migration consults — `IsNull()` and
`scriptPubKey.IsUnspendable()` — are kept as boolean attributes of the
output. -/
structure CTxOut where
  payload : Nat
  isNull : Bool
  isUnspendable : Bool
deriving DecidableEq, Repr

/-- The per-output coin record (`Coin` in coins.h, as used by txdb.cpp):
one output plus its creation height, a coinbase flag, and the transient
loaded-from-snapshot marker `fLoaded`. -/
structure Coin where
  out : CTxOut
  nHeight : Nat
  fCoinBase : Bool
  fLoaded : Bool
deriving DecidableEq, Repr

/-- A coin is spent when its output is the null sentinel
(`Coin::IsSpent()` checks `out.IsNull()`). -/
def Coin.IsSpent (c : Coin) : Bool := c.out.isNull

/-- A loaded-coin record (`LoadedCoin`): an outpoint, its coin, and a
spent flag, as stored in the loaded-coin overlay database. -/
structure LoadedCoin where
  out : COutPoint
  coin : Coin
  fSpent : Bool
deriving DecidableEq, Repr

/-- Legacy per-transaction coin record (`CCoins` in txdb.cpp): coinbase
flag, the array of outputs (spent ones are null), and the height. -/
structure CCoins where
  fCoinBase : Bool
  vout : List CTxOut
  nHeight : Nat
deriving DecidableEq, Repr

/-- Typed keys of the chainstate database: `DB_BEST_BLOCK` ('B'),
`DB_HEAD_BLOCKS` ('H'), per-output coin keys (`DB_COIN` 'C' with an
outpoint payload), and legacy per-transaction keys (`DB_COINS` 'c' with a
transaction-hash payload). -/
inductive DBKey where
  | bestBlock : DBKey
  | headBlocks : DBKey
  | coin : COutPoint → DBKey
  | coins : Nat → DBKey
deriving DecidableEq, Repr

/-- Typed values of the chainstate database. -/
inductive DBValue where
  | hash : Nat → DBValue
  | hashList : List Nat → DBValue
  | coinVal : Coin → DBValue
  | legacyVal : CCoins → DBValue
deriving DecidableEq, Repr

/-- One operation of a `CDBBatch`: a write or an erase of a single key. -/
inductive DBOp where
  | write : DBKey → DBValue → DBOp
  | erase : DBKey → DBOp
deriving DecidableEq, Repr

/-- The chainstate database, as an association list from keys to values
(lookup returns the first binding; writes replace earlier bindings). -/
abbrev Store := List (DBKey × DBValue)

/-- Point read (`CDBWrapper::Read`): the first binding for the key. -/
def Store.read : Store → DBKey → Option DBValue
  | [], _ => none
  | kv :: rest, k => if kv.1 = k then some kv.2 else Store.read rest k

/-- Erase a key from the store. -/
def Store.eraseKey : Store → DBKey → Store
  | [], _ => []
  | kv :: rest, k =>
    if kv.1 = k then Store.eraseKey rest k else kv :: Store.eraseKey rest k

/-- Write a key (replacing any existing binding). -/
def Store.writeKey (s : Store) (k : DBKey) (v : DBValue) : Store :=
  (k, v) :: s.eraseKey k

/-- Apply one batch operation to the store. -/
def applyOp (s : Store) : DBOp → Store
  | .write k v => s.writeKey k v
  | .erase k => s.eraseKey k

/-- Apply a whole `CDBBatch` (`CDBWrapper::WriteBatch`): the operations
are applied in order, atomically from the caller's point of view. -/
def applyBatch (s : Store) (b : List DBOp) : Store := b.foldl applyOp s

/-! ## The loaded-coin overlay database

The overlay (`loadedcoindb`) stores `LoadedCoin` records under the key
`(DB_LOADED_COINS, hash)` where `hash` is the serialize-hash of the
outpoint (`COutPoint::GetHash()`).  Since every key written by the code
has the same discriminator `'p'`, the engine's byte-lexicographic key
order is the order of the hashes; the overlay is modelled as a list of
`(hash, record)` pairs sorted by strictly increasing hash.  The hash
function itself (`SerializeHash`, a cryptographic hash) is kept as an
explicit parameter `hf : COutPoint → Nat` of every operation that calls
`COutPoint::GetHash()`. -/

/-- The loaded-coin overlay database: `(outpoint-hash, record)` pairs in
engine key order. -/
abbrev Overlay := List (Nat × LoadedCoin)

/-- Well-formedness of the overlay: keys strictly increasing, which is
what the ordered engine guarantees for its key space. -/
abbrev Overlay.Sorted (ov : Overlay) : Prop :=
  List.Pairwise (fun a b : Nat × LoadedCoin => a.1 < b.1) ov

/-- `CDBIterator::Seek`: position the cursor at the first entry whose key
is greater than or equal to the sought key. -/
def Overlay.seek (ov : Overlay) (h : Nat) : Option (Nat × LoadedCoin) :=
  match ov with
  | [] => none
  | x :: xs => if h ≤ x.1 then some x else Overlay.seek xs h

/-- `CCoinsViewDB::GetLoadedCoin`: seek the overlay cursor to the
outpoint hash and accept the entry found there only if its key equals the
sought hash. -/
def GetLoadedCoin (ov : Overlay) (hashOutPoint : Nat) : Option LoadedCoin :=
  match ov.seek hashOutPoint with
  | some kv => if kv.1 = hashOutPoint then some kv.2 else none
  | none => none

/-- `CCoinsViewDB::HaveLoadedCoin`: presence test via `GetLoadedCoin`;
note that it does not consult the record's spent flag. -/
def HaveLoadedCoin (ov : Overlay) (hashOutPoint : Nat) : Bool :=
  (GetLoadedCoin ov hashOutPoint).isSome

/-- Engine put into the overlay: sorted insert, replacing an existing
binding of the same key. -/
def Overlay.put (ov : Overlay) (k : Nat) (c : LoadedCoin) : Overlay :=
  match ov with
  | [] => [(k, c)]
  | x :: xs =>
    if k < x.1 then (k, c) :: x :: xs
    else if k = x.1 then (k, c) :: xs
    else x :: Overlay.put xs k c

/-- `CCoinsViewDB::WriteLoadedCoinIndex`: write a batch of loaded coins,
each under `(DB_LOADED_COINS, c.out.GetHash())`. -/
def WriteLoadedCoinIndex (hf : COutPoint → Nat) (ov : Overlay)
    (vLoadedCoin : List LoadedCoin) : Overlay :=
  vLoadedCoin.foldl (fun acc c => acc.put (hf c.out) c) ov

/-! ## The coin view (`CCoinsViewDB`) read path -/

/-- `CCoinsViewDB::GetCoin`.  The argument `coin` is the caller-supplied
in-out parameter; the result is the returned boolean together with the
contents of that parameter after the call.  Primary-table hit: return the
stored coin.  Primary miss: fall back to the overlay by outpoint hash; on
an overlay hit the parameter is overwritten with the overlay coin, its
loaded marker is set, and the call returns the negation of the record's
spent flag. -/
def GetCoin (hf : COutPoint → Nat) (db : Store) (ov : Overlay)
    (outpoint : COutPoint) (coin : Coin) : Bool × Coin :=
  match db.read (.coin outpoint) with
  | some (.coinVal c) => (true, c)
  | _ =>
    match GetLoadedCoin ov (hf outpoint) with
    | some loadedCoin => (!loadedCoin.fSpent, { loadedCoin.coin with fLoaded := true })
    | none => (false, coin)

/-- `CCoinsViewDB::HaveCoin`: existence in the primary table, else
`HaveLoadedCoin` on the outpoint hash. -/
def HaveCoin (hf : COutPoint → Nat) (db : Store) (ov : Overlay)
    (outpoint : COutPoint) : Bool :=
  match db.read (.coin outpoint) with
  | some _ => true
  | none => HaveLoadedCoin ov (hf outpoint)

/-- `CCoinsViewDB::GetBestBlock`: the zero (null) hash when the
best-block key is absent. -/
def GetBestBlock (s : Store) : Nat :=
  match s.read .bestBlock with
  | some (.hash h) => h
  | _ => 0

/-- `CCoinsViewDB::GetHeadBlocks`: the empty list when the head-blocks
key is absent. -/
def GetHeadBlocks (s : Store) : List Nat :=
  match s.read .headBlocks with
  | some (.hashList l) => l
  | _ => []

/-! ## The commit protocol (`CCoinsViewDB::BatchWrite`)

`BatchWrite` drains the changeset `mapCoins` into batches.  The changeset
is a `std::map` iterated in order; it is modelled as a list of
`(outpoint, cache entry)` pairs in iteration order.  The batch size
estimate (`CDBBatch::SizeEstimate`, raw LevelDB byte accounting) is kept
as an explicit parameter `sizeEst`, and the `-dbbatchsize` threshold as
`batchSize`.  The two `assert`s in `BatchWrite` (null tip hash, and a
head-blocks marker that does not match the new tip during replay) are
modelled as `Except` errors, since a failed `assert` terminates the
process rather than returning `false`. -/

/-- One changeset entry (`CCoinsCacheEntry`): the coin and its DIRTY
flag bit. -/
structure CacheEntry where
  coin : Coin
  dirty : Bool
deriving DecidableEq, Repr

/-- The changeset consumed by `BatchWrite` (`CCoinsMap`), in map
iteration order. -/
abbrev CCoinsMap := List (COutPoint × CacheEntry)

/-- The batch operation emitted for one dirty changeset entry: erase the
coin key when the coin is spent, write the coin otherwise. -/
def coinOp (o : COutPoint) (c : Coin) : DBOp :=
  if c.IsSpent then .erase (.coin o) else .write (.coin o) (.coinVal c)

/-- The fatal conditions of `BatchWrite`: the `assert(!hashBlock.IsNull())`
precondition, and `assert(old_heads[0] == hashBlock)` during replay. -/
inductive BWAssert where
  | nullHash : BWAssert
  | replayMismatch : BWAssert
deriving DecidableEq, Repr

/-- The loop of `BatchWrite` that drains the changeset into batches.
Returns the list of intermediate batches flushed when the size estimate
exceeded the threshold, the operations still pending in the current
batch, and the residual changeset (the entries that were skipped because
their coin carries the loaded marker — they are not erased from the
map). -/
def drainLoop (sizeEst : List DBOp → Nat) (batchSize : Nat) :
    CCoinsMap → List DBOp → List (List DBOp) × List DBOp × CCoinsMap
  | [], batch => ([], batch, [])
  | (o, e) :: rest, batch =>
    if e.coin.fLoaded then
      let r := drainLoop sizeEst batchSize rest batch
      (r.1, r.2.1, (o, e) :: r.2.2)
    else
      let batch' := if e.dirty then batch ++ [coinOp o e.coin] else batch
      if sizeEst batch' > batchSize then
        let r := drainLoop sizeEst batchSize rest []
        (batch' :: r.1, r.2.1, r.2.2)
      else
        drainLoop sizeEst batchSize rest batch'

/-- The decomposition of one `BatchWrite` call: the previous tip it
determined, the intermediate flushed batches, the final batch (pending
coin operations followed by the steady-state tip ops), and the residual
changeset. -/
structure BWParts where
  oldTip : Nat
  flushed : List (List DBOp)
  finalBatch : List DBOp
  residual : CCoinsMap
deriving DecidableEq

/-- The first two operations of a commit: erase the best-block key and
write the head-blocks transitional marker `[hashBlock, old_tip]`. -/
def tipTransOps (hashBlock oldTip : Nat) : List DBOp :=
  [.erase .bestBlock, .write .headBlocks (.hashList [hashBlock, oldTip])]

/-- The last two operations of a commit: erase the head-blocks marker and
write the best-block key to the new tip. -/
def tipSteadyOps (hashBlock : Nat) : List DBOp :=
  [.erase .headBlocks, .write .bestBlock (.hash hashBlock)]

/-- `CCoinsViewDB::BatchWrite`, up to the engine: compute the batches the
commit issues and the residual changeset.  Follows txdb.cpp lines
108-173: assert the tip hash is non-null; determine the old tip from the
best-block key, falling back to the second entry of a two-element
head-blocks marker (asserting its first entry matches the new tip);
start the first batch with the transitional ops; drain the changeset,
flushing whenever the size estimate exceeds the threshold; and end the
final batch with the steady-state ops. -/
def computeOldTip (st : Store) (hashBlock : Nat) : Except BWAssert Nat :=
  if GetBestBlock st = 0 then
    match GetHeadBlocks st with
    | [a, b] => if a = hashBlock then .ok b else .error .replayMismatch
    | _ => .ok 0
  else .ok (GetBestBlock st)

def batchWriteParts (sizeEst : List DBOp → Nat) (batchSize : Nat)
    (st : Store) (mapCoins : CCoinsMap) (hashBlock : Nat) :
    Except BWAssert BWParts :=
  if hashBlock = 0 then .error .nullHash
  else
    match computeOldTip st hashBlock with
    | .error e => .error e
    | .ok oldTip =>
      let r := drainLoop sizeEst batchSize mapCoins (tipTransOps hashBlock oldTip)
      .ok ⟨oldTip, r.1, r.2.1 ++ tipSteadyOps hashBlock, r.2.2⟩

/-- `CCoinsViewDB::BatchWrite` including the engine writes.  `engineOk`
says whether a given `CDBWrapper::WriteBatch` call succeeds; a failed
write applies nothing.  The return values of the intermediate flushes are
discarded by the source; only the final `WriteBatch` return value is
returned. -/
def BatchWrite (engineOk : List DBOp → Bool) (sizeEst : List DBOp → Nat)
    (batchSize : Nat) (st : Store) (mapCoins : CCoinsMap) (hashBlock : Nat) :
    Except BWAssert (Store × CCoinsMap × Bool) :=
  (batchWriteParts sizeEst batchSize st mapCoins hashBlock).map (fun p =>
    let stMid := p.flushed.foldl
      (fun s b => if engineOk b then applyBatch s b else s) st
    let ok := engineOk p.finalBatch
    ((if ok then applyBatch stMid p.finalBatch else stMid), p.residual, ok))

/-- Steady on-disk tip state: best-block key present (holding a hash),
head-blocks key absent. -/
def steadyState (s : Store) : Prop :=
  (∃ h, s.read .bestBlock = some (.hash h)) ∧ s.read .headBlocks = none

/-- Transitional on-disk tip state: best-block key absent, head-blocks
key present with exactly two entries. -/
def transitionalState (s : Store) : Prop :=
  s.read .bestBlock = none ∧
    ∃ a b, s.read .headBlocks = some (.hashList [a, b])

/-- A batch operation that touches only a per-output coin key. -/
def isCoinMut : DBOp → Bool
  | .write (.coin _) _ => true
  | .erase (.coin _) => true
  | _ => false

/-! ## The migration engine (`CCoinsViewDB::Upgrade`)

`Upgrade` walks all legacy `DB_COINS` records in ascending key order via
a forward cursor, rewrites each into per-output `DB_COIN` records,
erases the legacy record, and flushes the accumulated batch whenever its
size estimate exceeds `1 << 24`.  The external shutdown signal
(`ShutdownRequested()`, a one-way latch) is modelled as the index of the
loop check at which it first reads true (`none` when it never does). -/

/-- The shutdown latch read at loop-check index `k`: set from index `m`
on (the signal is never cleared once requested). -/
def isShutdown (shutdownAt : Option Nat) (k : Nat) : Bool :=
  match shutdownAt with
  | some m => decide (m ≤ k)
  | none => false

/-- The migration's per-output filter (txdb.cpp line 782): keep an
output iff it is neither null nor unspendable. -/
def spendable (o : CTxOut) : Bool := !o.isNull && !o.isUnspendable

/-- The modern per-output records produced from the output array of one
legacy record, walking the array from index `i` (the C++ loop
`for i in 0..vout.size`): for every spendable output, a record keyed by
(transaction hash, output index) holding the migrated coin. -/
def voutEntries (t : Nat) (cc : CCoins) : Nat → List CTxOut → List (COutPoint × Coin)
  | _, [] => []
  | i, o :: rest =>
    (if spendable o then [(⟨t, i⟩, ⟨o, cc.nHeight, cc.fCoinBase, false⟩)] else []) ++
      voutEntries t cc (i + 1) rest

/-- The batch operations produced for one legacy record `(t, cc)`: one
modern coin write for every output that is neither null nor unspendable
(keyed by transaction hash and output index), followed by the erase of
the legacy key. -/
def recordOps (t : Nat) (cc : CCoins) : List DBOp :=
  (voutEntries t cc 0 cc.vout).map (fun q => .write (.coin q.1) (.coinVal q.2)) ++
    [DBOp.erase (.coins t)]

/-- The fixed `batch_size` threshold of `Upgrade` (`1 << 24`). -/
def upgradeBatchSize : Nat := 2 ^ 24

/-- The scan loop of `Upgrade` over the legacy records in cursor order.
Before each record the shutdown latch is checked; on shutdown the loop
breaks, the pending batch is written, and the final
`!ShutdownRequested()` is false.  A record whose value fails to decode
as `CCoins` aborts with an error return (the pending batch is not
written).  Otherwise the record's operations are appended and the batch
is flushed when its size estimate exceeds the threshold. -/
def upgradeLoop (sizeEst : List DBOp → Nat) (shutdownAt : Option Nat) :
    List (Nat × DBValue) → Nat → List DBOp → Store → Store × Bool
  | [], k, batch, st => (applyBatch st batch, !isShutdown shutdownAt k)
  | (t, v) :: rest, k, batch, st =>
    if isShutdown shutdownAt k then (applyBatch st batch, false)
    else
      match v with
      | .legacyVal cc =>
        let batch' := batch ++ recordOps t cc
        if sizeEst batch' > upgradeBatchSize then
          upgradeLoop sizeEst shutdownAt rest (k + 1) [] (applyBatch st batch')
        else
          upgradeLoop sizeEst shutdownAt rest (k + 1) batch' st
      | _ => (st, false)

/-- The legacy (`DB_COINS`-prefixed) entries of a store, with their
stored values. -/
def legacyList (s : Store) : List (Nat × DBValue) :=
  s.filterMap (fun kv =>
    match kv.1 with
    | .coins t => some (t, kv.2)
    | _ => none)

/-- The legacy entries in ascending key order — the order in which the
`Upgrade` cursor visits them. -/
def sortedLegacy (s : Store) : List (Nat × DBValue) :=
  (legacyList s).insertionSort (fun a b => a.1 ≤ b.1)

/-- `CCoinsViewDB::Upgrade`: seek to the first legacy key; if none
exists return success immediately without touching the store; otherwise
run the scan loop. -/
def Upgrade (sizeEst : List DBOp → Nat) (shutdownAt : Option Nat)
    (st : Store) : Store × Bool :=
  match sortedLegacy st with
  | [] => (st, true)
  | legacy => upgradeLoop sizeEst shutdownAt legacy 0 [] st

/-! ## The coin-key codec (`CoinEntry`)

A coin key serializes as the discriminator byte `DB_COIN` (`'C'` = 67),
the 32 raw bytes of the transaction hash, and the output index as a
variable-length integer.  `Unserialize` reads these fields back from a
byte string.  Modelled from the spec: the byte-stream primitives of the
serialization layer (serialize.h — fixed-width reads that throw on
stream end, and the continuation-bit variable-length integer codec) are
not part of the source tree; reading past the end of the input is a
decode failure (`none`), mirroring the end-of-data exception. -/

/-- A little-endian byte list as a natural number (how the 32 raw bytes
of a `uint256` form its value). -/
def bytesToNat (l : List Nat) : Nat := l.foldr (fun b acc => b + 256 * acc) 0

/-- Modelled from the spec: `ReadVarInt` — bytes carry 7 payload bits, a
set high bit marks continuation (with the format's +1 offset on
continuation); fails on stream end before a terminating byte. -/
def readVarIntAux : List Nat → Nat → Option (Nat × List Nat)
  | [], _ => none
  | b :: rest, acc =>
    let acc' := acc * 128 + b % 128
    if b < 128 then some (acc', rest) else readVarIntAux rest (acc' + 1)

/-- Read a variable-length integer from the front of a byte string. -/
def readVarInt (bs : List Nat) : Option (Nat × List Nat) :=
  readVarIntAux bs 0

/-- The byte value of the `DB_COIN` discriminator `'C'`. -/
def DB_COIN : Nat := 67

/-- A deserialized `CoinEntry`: the discriminator byte that was read and
the outpoint. -/
structure CoinEntry where
  key : Nat
  outpoint : COutPoint
deriving DecidableEq, Repr

/-- `CoinEntry::Unserialize` (txdb.cpp lines 58-63): read the
discriminator byte, the 32 hash bytes, and the varint index, in that
order, returning the entry and the unread remainder of the input.  The
discriminator byte is stored as read — the source performs no check
against `DB_COIN` here. -/
def CoinEntry.Unserialize (bs : List Nat) : Option (CoinEntry × List Nat) :=
  match bs with
  | [] => none
  | k :: rest =>
    if 32 ≤ rest.length then
      match readVarInt (rest.drop 32) with
      | some (n, rest2) => some (⟨k, ⟨bytesToNat (rest.take 32), n⟩⟩, rest2)
      | none => none
    else none

/-! ## The loaded-coin file format

`WriteMyLoadedCoins` writes a required-reader version (210000), the
writer's `CLIENT_VERSION`, a record count, and the records.
`ReadLoadedCoins` imports such a file into the overlay in batches (the
source uses 4000000 records per batch; the batch size is kept as a
parameter).  `CLIENT_VERSION` (clientversion.h) is not part of the
source tree and is kept as a parameter. -/

/-- The contents of a loaded-coin snapshot file. -/
structure LoadedCoinFile where
  nVersionRequired : Int
  nVersionThatWrote : Int
  count : Nat
  records : List LoadedCoin
deriving DecidableEq

/-- `CCoinsViewDB::WriteMyLoadedCoins`: nothing is written for an empty
coin set (the function returns before opening the file); otherwise the
file holds required version 210000, the writer's version, the count, and
the records. -/
def WriteMyLoadedCoins (clientVersion : Int) (vLoadedCoin : List LoadedCoin) :
    Option LoadedCoinFile :=
  if vLoadedCoin.length = 0 then none
  else some ⟨210000, clientVersion, vLoadedCoin.length, vLoadedCoin⟩

/-- The import loop of `ReadLoadedCoins`, counting down the declared
record count.  Before reading record `i`, when `i` is a multiple of the
batch size the accumulated vector is flushed to the overlay index and
cleared.  Running out of stream data raises the exception path: the
function returns false and the unflushed vector is lost, but batches
already written stay.  After the last record the final batch is
written. -/
def readLoadedCoinsLoop (hf : COutPoint → Nat) (batchSize : Nat) :
    Nat → Nat → List LoadedCoin → List LoadedCoin → Overlay → Overlay × Bool
  | 0, _, _, vec, ov => (WriteLoadedCoinIndex hf ov vec, true)
  | remaining + 1, i, recs, vec, ov =>
    let st := if i % batchSize = 0 then ([], WriteLoadedCoinIndex hf ov vec)
              else (vec, ov)
    match recs with
    | [] => (st.2, false)
    | r :: rest =>
      readLoadedCoinsLoop hf batchSize remaining (i + 1) rest (st.1 ++ [r]) st.2

/-- `CCoinsViewDB::ReadLoadedCoins`: fail when the file is absent or its
required reader version exceeds the running client version; otherwise it
imports the declared number of records into the overlay index in
batches. -/
def ReadLoadedCoins (hf : COutPoint → Nat) (clientVersion : Int)
    (batchSize : Nat) (ov : Overlay) (file : Option LoadedCoinFile) :
    Overlay × Bool :=
  match file with
  | none => (ov, false)
  | some f =>
    if f.nVersionRequired > clientVersion then (ov, false)
    else readLoadedCoinsLoop hf batchSize f.count 0 f.records [] ov

/-- `CCoinsViewDB::ReadMyLoadedCoins`: read the declared number of
records into a vector; an absent file or a version mismatch yields the
empty vector, and a stream that ends early yields the records read so
far (the exception handler returns the partial vector). -/
def ReadMyLoadedCoins (clientVersion : Int) (file : Option LoadedCoinFile) :
    List LoadedCoin :=
  match file with
  | none => []
  | some f =>
    if f.nVersionRequired > clientVersion then []
    else f.records.take f.count

/-! ## Store lemmas -/

/-- The key a batch operation touches. -/
def DBOp.opKey : DBOp → DBKey
  | .write k _ => k
  | .erase k => k

/-- The net effect of a list of batch operations on one key: `none` when
the key is untouched, `some none` when the last operation on it is an
erase, `some (some v)` when the last operation on it writes `v`. -/
def effectOn : List DBOp → DBKey → Option (Option DBValue)
  | [], _ => none
  | op :: rest, k =>
    match effectOn rest k with
    | some r => some r
    | none =>
      match op with
      | .write k' v => if k' = k then some (some v) else none
      | .erase k' => if k' = k then some none else none

/-- The value an operation leaves under its own key. -/
def DBOp.effect : DBOp → Option DBValue
  | .write _ v => some v
  | .erase _ => none

/-- Applying a sequence of batches one by one. -/
def applySeq (s : Store) (bs : List (List DBOp)) : Store :=
  bs.foldl applyBatch s

/-- Every operation of the list touches a per-output coin key. -/
def allCoinMut (ops : List DBOp) : Prop := ∀ op ∈ ops, isCoinMut op = true

/-- The coin operations a changeset contributes to a commit, in order:
one write/erase per dirty non-loaded entry. -/
def drainOps (entries : CCoinsMap) : List DBOp :=
  (entries.filter (fun e => !e.2.coin.fLoaded && e.2.dirty)).map
    (fun e => coinOp e.1 e.2.coin)

/-- Whether a database value decodes as a legacy `CCoins` record. -/
def DBValue.isLegacy : DBValue → Bool
  | .legacyVal _ => true
  | _ => false

/-- The batch operations of one scanned entry. -/
def legacyRecordOps (q : Nat × DBValue) : List DBOp :=
  match q.2 with
  | .legacyVal cc => recordOps q.1 cc
  | _ => []

/-- All operations the migration issues for a list of scanned entries. -/
def allMigOps (L : List (Nat × DBValue)) : List DBOp := L.flatMap legacyRecordOps

/-- The modern records one scanned entry produces. -/
def recEntriesOf (q : Nat × DBValue) : List (COutPoint × Coin) :=
  match q.2 with
  | .legacyVal cc => voutEntries q.1 cc 0 cc.vout
  | _ => []

/-- The modern records the migration produces for a list of entries. -/
def migEntries (L : List (Nat × DBValue)) : List (COutPoint × Coin) :=
  L.flatMap recEntriesOf

/-- The migrated coin for an outpoint, when one exists. -/
def migLookup (L : List (Nat × DBValue)) (o : COutPoint) : Option Coin :=
  ((migEntries L).find? (fun q => decide (q.1 = o))).map (fun q => q.2)

/-- Number of spendable outputs carried by a legacy value. -/
def spendCount : DBValue → Nat
  | .legacyVal cc => (cc.vout.filter spendable).length
  | _ => 0

/-- The outpoints holding modern per-output records in a store. -/
def modernKeys (s : Store) : List COutPoint :=
  s.filterMap (fun kv =>
    match kv.1 with
    | .coin o => some o
    | _ => none)

/-! ## Sample data used by the witness theorems -/

/-- An unspent coin. -/
def wLiveCoin : Coin := ⟨⟨7, false, false⟩, 10, false, false⟩

/-- A spent coin (null output sentinel). -/
def wSpentCoin : Coin := ⟨⟨0, true, false⟩, 10, false, false⟩

/-- A coin carrying the loaded-from-snapshot marker. -/
def wLoadedCoin : Coin := ⟨⟨8, false, false⟩, 10, false, true⟩

/-- A steady-state chainstate store at tip 5. -/
def wStore : Store := [(.bestBlock, .hash 5)]

/-- A changeset with a dirty spend, a dirty create, and a loaded entry. -/
def wMap : CCoinsMap :=
  [(⟨1, 0⟩, ⟨wSpentCoin, true⟩), (⟨2, 0⟩, ⟨wLiveCoin, true⟩),
   (⟨3, 0⟩, ⟨wLoadedCoin, true⟩)]

/-- A sorted overlay with one unspent and one spent record. -/
def wOverlay : Overlay :=
  [(10, ⟨⟨1, 0⟩, wLiveCoin, false⟩), (20, ⟨⟨2, 0⟩, wLiveCoin, true⟩)]

/-- A sample outpoint-hash function for the witnesses. -/
def wHf : COutPoint → Nat := fun o => 10 * o.hash

/-- The decomposition of committing `wMap` with batch threshold 2. -/
def wParts : BWParts :=
  ⟨5,
   [[.erase .bestBlock, .write .headBlocks (.hashList [9, 5]),
     .erase (.coin ⟨1, 0⟩)]],
   [.write (.coin ⟨2, 0⟩) (.coinVal wLiveCoin), .erase .headBlocks,
    .write .bestBlock (.hash 9)],
   [(⟨3, 0⟩, ⟨wLoadedCoin, true⟩)]⟩

/-- The decomposition of committing `wMap` with batch threshold 100. -/
def wParts100 : BWParts :=
  ⟨5, [],
   [.erase .bestBlock, .write .headBlocks (.hashList [9, 5]),
    .erase (.coin ⟨1, 0⟩), .write (.coin ⟨2, 0⟩) (.coinVal wLiveCoin),
    .erase .headBlocks, .write .bestBlock (.hash 9)],
   [(⟨3, 0⟩, ⟨wLoadedCoin, true⟩)]⟩

/-- The result of committing `wMap` to `wStore` with threshold 100. -/
def wCommitResult : Store × CCoinsMap × Bool :=
  ([(.bestBlock, .hash 9), (.coin ⟨2, 0⟩, .coinVal wLiveCoin)],
   [(⟨3, 0⟩, ⟨wLoadedCoin, true⟩)], true)

/-- A store holding a live coin for outpoint (2,0). -/
def wStore2 : Store :=
  [(.bestBlock, .hash 5), (.coin ⟨2, 0⟩, .coinVal wLiveCoin)]

/-- A changeset spending outpoint (2,0). -/
def wSpendMap : CCoinsMap := [(⟨2, 0⟩, ⟨wSpentCoin, true⟩)]

/-- A legacy record with two spendable outputs, one null and one
unspendable output. -/
def wCC7 : CCoins :=
  ⟨true, [⟨1, false, false⟩, ⟨0, true, false⟩, ⟨2, false, true⟩,
    ⟨3, false, false⟩], 50⟩

/-- A legacy record with one spendable output. -/
def wCC3 : CCoins := ⟨false, [⟨9, false, false⟩], 60⟩

/-- A store with two legacy records and no modern records. -/
def wLegacyStore : Store :=
  [(.coins 7, .legacyVal wCC7), (.bestBlock, .hash 5),
   (.coins 3, .legacyVal wCC3)]

/-- A set of loaded-coin records with distinct outpoint hashes. -/
def wCoins : List LoadedCoin :=
  [⟨⟨1, 0⟩, wLiveCoin, false⟩, ⟨⟨2, 0⟩, wSpentCoin, true⟩]

/-- A well-formed coin-key byte string with discriminator 'C'. -/
def wBytes : List Nat := 67 :: (List.replicate 32 0 ++ [5])

theorem Store.read_eraseKey_self (s : Store) (k : DBKey) :
    (s.eraseKey k).read k = none := by
  induction s with
  | nil => rfl
  | cons kv rest ih =>
    by_cases h : kv.1 = k
    · rw [Store.eraseKey, if_pos h]
      exact ih
    · rw [Store.eraseKey, if_neg h, Store.read, if_neg h]
      exact ih

theorem Store.read_eraseKey_ne (s : Store) {k k' : DBKey} (h : k' ≠ k) :
    (s.eraseKey k).read k' = s.read k' := by
  induction s with
  | nil => rfl
  | cons kv rest ih =>
    by_cases hk : kv.1 = k
    · have hne : kv.1 ≠ k' := fun hc => h (hc.symm.trans hk)
      rw [Store.eraseKey, if_pos hk, Store.read, if_neg hne]
      exact ih
    · by_cases hk' : kv.1 = k'
      · rw [Store.eraseKey, if_neg hk, Store.read, if_pos hk', Store.read, if_pos hk']
      · rw [Store.eraseKey, if_neg hk, Store.read, if_neg hk', Store.read, if_neg hk']
        exact ih

theorem Store.read_writeKey_self (s : Store) (k : DBKey) (v : DBValue) :
    (s.writeKey k v).read k = some v := by
  simp [Store.writeKey, Store.read]

theorem Store.read_writeKey_ne (s : Store) {k k' : DBKey} (v : DBValue)
    (h : k' ≠ k) : (s.writeKey k v).read k' = s.read k' := by
  have hne : k ≠ k' := fun hc => h hc.symm
  simp only [Store.writeKey, Store.read, hne, if_false]
  exact Store.read_eraseKey_ne s h

/-- Reading after applying a batch: the last operation on the key wins;
an untouched key reads as before. -/
theorem read_applyBatch (ops : List DBOp) (s : Store) (k : DBKey) :
    (applyBatch s ops).read k = (effectOn ops k).getD (s.read k) := by
  induction ops generalizing s with
  | nil => rfl
  | cons op rest ih =>
    show (applyBatch (applyOp s op) rest).read k = _
    rw [ih]
    cases hrest : effectOn rest k with
    | some r => simp [effectOn, hrest]
    | none =>
      cases op with
      | write k' v =>
        by_cases hk : k' = k
        · subst hk
          simp [effectOn, hrest, applyOp, Store.read_writeKey_self]
        · simp [effectOn, hrest, applyOp, hk,
            Store.read_writeKey_ne s v (fun hc => hk hc.symm)]
      | erase k' =>
        by_cases hk : k' = k
        · subst hk
          simp [effectOn, hrest, applyOp, Store.read_eraseKey_self]
        · simp [effectOn, hrest, applyOp, hk,
            Store.read_eraseKey_ne s (fun hc => hk hc.symm)]

theorem effectOn_cons (op : DBOp) (rest : List DBOp) (k : DBKey) :
    effectOn (op :: rest) k =
      match effectOn rest k with
      | some r => some r
      | none =>
        match op with
        | .write k' v => if k' = k then some (some v) else none
        | .erase k' => if k' = k then some none else none := rfl

theorem effectOn_append (a b : List DBOp) (k : DBKey) :
    effectOn (a ++ b) k =
      match effectOn b k with
      | some r => some r
      | none => effectOn a k := by
  induction a with
  | nil =>
    cases h : effectOn b k <;> simp [effectOn, h]
  | cons op rest ih =>
    show effectOn (op :: (rest ++ b)) k = _
    rw [effectOn_cons, ih, effectOn_cons]
    cases h : effectOn b k <;> cases h' : effectOn rest k <;> simp

theorem effectOn_eq_none (ops : List DBOp) (k : DBKey)
    (h : ∀ op ∈ ops, op.opKey ≠ k) : effectOn ops k = none := by
  induction ops with
  | nil => rfl
  | cons op rest ih =>
    have hop := h op (List.mem_cons_self op rest)
    have hrest := ih (fun o ho => h o (List.mem_cons_of_mem op ho))
    cases op with
    | write k' v =>
      simp only [DBOp.opKey] at hop
      simp [effectOn, hrest, hop]
    | erase k' =>
      simp only [DBOp.opKey] at hop
      simp [effectOn, hrest, hop]

/-- When exactly one operation (up to equality) of the list touches the
key, the net effect is that operation's effect. -/
theorem effectOn_eq_of_unique (ops : List DBOp) (k : DBKey) (op₀ : DBOp)
    (hmem : op₀ ∈ ops) (hkey : op₀.opKey = k)
    (huniq : ∀ op ∈ ops, op.opKey = k → op = op₀) :
    effectOn ops k = some op₀.effect := by
  induction ops with
  | nil => cases hmem
  | cons op rest ih =>
    by_cases hr : op₀ ∈ rest
    · have := ih hr (fun o ho hk => huniq o (List.mem_cons_of_mem op ho) hk)
      simp [effectOn, this]
    · have hop : op = op₀ := by
        cases List.mem_cons.mp hmem with
        | inl h => exact h.symm
        | inr h => exact absurd h hr
      subst hop
      have hnone : effectOn rest k = none := by
        apply effectOn_eq_none
        intro o ho hko
        exact hr ((huniq o (List.mem_cons_of_mem op ho) hko) ▸ ho)
      cases op with
      | write k' v =>
        simp only [DBOp.opKey] at hkey
        simp [effectOn, hnone, hkey, DBOp.effect]
      | erase k' =>
        simp only [DBOp.opKey] at hkey
        simp [effectOn, hnone, hkey, DBOp.effect]

theorem applyBatch_append (s : Store) (a b : List DBOp) :
    applyBatch s (a ++ b) = applyBatch (applyBatch s a) b :=
  List.foldl_append _ _ _ _

theorem applySeq_eq_applyBatch_flatten (s : Store) (bs : List (List DBOp)) :
    applySeq s bs = applyBatch s bs.flatten := by
  induction bs generalizing s with
  | nil => rfl
  | cons b rest ih =>
    show applySeq (applyBatch s b) rest = _
    rw [ih, List.flatten_cons, applyBatch_append]

/-! ## Drain-loop lemmas -/

theorem isCoinMut_coinOp (o : COutPoint) (c : Coin) :
    isCoinMut (coinOp o c) = true := by
  unfold coinOp
  by_cases h : c.IsSpent <;> simp [h, isCoinMut]

theorem drainOps_allCoinMut (entries : CCoinsMap) : allCoinMut (drainOps entries) := by
  intro op hop
  obtain ⟨e, _, rfl⟩ := List.mem_map.mp hop
  exact isCoinMut_coinOp e.1 e.2.coin

theorem isCoinMut_opKey {op : DBOp} (h : isCoinMut op = true) :
    ∃ o, op.opKey = .coin o := by
  cases op with
  | write k v => cases k <;> simp_all [isCoinMut, DBOp.opKey]
  | erase k => cases k <;> simp_all [isCoinMut, DBOp.opKey]

/-- The residual changeset after the drain loop is exactly the loaded
entries, in order. -/
theorem drainLoop_residual (se : List DBOp → Nat) (bs : Nat) :
    ∀ (entries : CCoinsMap) (batch : List DBOp),
      (drainLoop se bs entries batch).2.2 =
        entries.filter (fun e => e.2.coin.fLoaded) := by
  intro entries
  induction entries with
  | nil => intro batch; rfl
  | cons oe rest ih =>
    intro batch
    obtain ⟨o, e⟩ := oe
    by_cases hl : e.coin.fLoaded
    · simp only [drainLoop, hl, if_true, List.filter_cons]
      simp [ih batch, hl]
    · simp only [drainLoop, hl, if_false, List.filter_cons]
      by_cases hf : se (if e.dirty then batch ++ [coinOp o e.coin] else batch) > bs
      · simp [hf, ih, hl]
      · simp [hf, ih, hl]

/-- The operations of all batches of a drain, concatenated, are the
incoming batch followed by one coin operation per dirty non-loaded
entry. -/
theorem drainLoop_join (se : List DBOp → Nat) (bs : Nat) :
    ∀ (entries : CCoinsMap) (batch : List DBOp),
      ((drainLoop se bs entries batch).1).flatten ++ (drainLoop se bs entries batch).2.1 =
        batch ++ drainOps entries := by
  intro entries
  induction entries with
  | nil => intro batch; simp [drainLoop, drainOps]
  | cons oe rest ih =>
    intro batch
    obtain ⟨o, e⟩ := oe
    have hfilter :
        (((o, e) :: rest).filter (fun e => !e.2.coin.fLoaded && e.2.dirty)) =
          (if !e.coin.fLoaded && e.dirty then [(o, e)] else []) ++
            rest.filter (fun e => !e.2.coin.fLoaded && e.2.dirty) := by
      by_cases hp : (!e.coin.fLoaded && e.dirty) = true <;>
        simp [List.filter_cons, hp]
    by_cases hl : e.coin.fLoaded
    · simp only [drainLoop, if_pos hl]
      rw [ih batch]
      simp [drainOps, hfilter, hl]
    · simp only [drainLoop, if_neg hl]
      have hl' : (!e.coin.fLoaded) = true := by
        simp [Bool.not_eq_true] at hl
        simp [hl]
      by_cases hf : se (if e.dirty then batch ++ [coinOp o e.coin] else batch) > bs
      · rw [if_pos hf]
        simp only [List.flatten_cons]
        rw [List.append_assoc, ih ([] : List DBOp)]
        by_cases hd : e.dirty <;>
          simp [drainOps, hfilter, hl', hd]
      · rw [if_neg hf]
        rw [ih (if e.dirty then batch ++ [coinOp o e.coin] else batch)]
        by_cases hd : e.dirty <;>
          simp [drainOps, hfilter, hl', hd]

/-- Structure of the drain's batches: the first batch extends the
incoming batch with coin operations only, and every later batch and the
final pending operations are coin operations only. -/
theorem drainLoop_shape (se : List DBOp → Nat) (bs : Nat) :
    ∀ (entries : CCoinsMap) (batch : List DBOp),
      ∃ t, allCoinMut t ∧
        (((drainLoop se bs entries batch).1 = [] ∧
            (drainLoop se bs entries batch).2.1 = batch ++ t) ∨
         (∃ rest2, (drainLoop se bs entries batch).1 = (batch ++ t) :: rest2 ∧
            (∀ b ∈ rest2, allCoinMut b) ∧
            allCoinMut (drainLoop se bs entries batch).2.1)) := by
  intro entries
  induction entries with
  | nil =>
    intro batch
    exact ⟨[], fun op h => absurd h (List.not_mem_nil op), Or.inl ⟨rfl, by simp [drainLoop]⟩⟩
  | cons oe rest ih =>
    intro batch
    obtain ⟨o, e⟩ := oe
    by_cases hl : e.coin.fLoaded
    · simp only [drainLoop, if_pos hl]
      exact ih batch
    · simp only [drainLoop, if_neg hl]
      have hops : allCoinMut (if e.dirty then [coinOp o e.coin] else []) := by
        by_cases hd : e.dirty <;> simp [hd, allCoinMut, isCoinMut_coinOp]
      have hbatch' :
          (if e.dirty then batch ++ [coinOp o e.coin] else batch) =
            batch ++ (if e.dirty then [coinOp o e.coin] else []) := by
        by_cases hd : e.dirty <;> simp [hd]
      by_cases hf : se (if e.dirty then batch ++ [coinOp o e.coin] else batch) > bs
      · rw [if_pos hf]
        obtain ⟨t', ht', hcase⟩ := ih []
        refine ⟨(if e.dirty then [coinOp o e.coin] else []), hops,
          Or.inr ⟨(drainLoop se bs rest []).1, ?_, ?_, ?_⟩⟩
        · rw [hbatch']
        · intro b hb
          rcases hcase with ⟨hfl, _⟩ | ⟨rest2, hfl, hrest2, _⟩
          · rw [hfl] at hb
            exact absurd hb (List.not_mem_nil b)
          · rw [hfl] at hb
            rcases List.mem_cons.mp hb with rfl | hb'
            · simpa using ht'
            · exact hrest2 b hb'
        · rcases hcase with ⟨_, hfin⟩ | ⟨_, _, _, hfin⟩
          · show allCoinMut (drainLoop se bs rest []).2.1
            rw [hfin]
            simpa using ht'
          · exact hfin
      · rw [if_neg hf]
        obtain ⟨t', ht', hcase⟩ := ih (if e.dirty then batch ++ [coinOp o e.coin] else batch)
        refine ⟨(if e.dirty then [coinOp o e.coin] else []) ++ t', ?_, ?_⟩
        · intro op hop
          rcases List.mem_append.mp hop with h | h
          · exact hops op h
          · exact ht' op h
        · rcases hcase with ⟨hfl, hfin⟩ | ⟨rest2, hfl, hrest2, hfin⟩
          · exact Or.inl ⟨hfl, by rw [hfin, hbatch', List.append_assoc]⟩
          · exact Or.inr ⟨rest2, by rw [hfl, hbatch', List.append_assoc], hrest2, hfin⟩

/-! ## Tip-state lemmas -/

theorem read_applyBatch_tipKeys (s : Store) (ops : List DBOp) (h : allCoinMut ops) :
    (applyBatch s ops).read .bestBlock = s.read .bestBlock ∧
    (applyBatch s ops).read .headBlocks = s.read .headBlocks := by
  have hkeys : ∀ k, (∀ o : COutPoint, k ≠ .coin o) →
      (applyBatch s ops).read k = s.read k := by
    intro k hk
    rw [read_applyBatch, effectOn_eq_none]
    · rfl
    · intro op hop
      obtain ⟨o, ho⟩ := isCoinMut_opKey (h op hop)
      rw [ho]
      exact fun hc => hk o hc.symm
  exact ⟨hkeys _ (fun o hc => by cases hc), hkeys _ (fun o hc => by cases hc)⟩

theorem applySeq_tipKeys (bs : List (List DBOp)) (s : Store)
    (h : ∀ b ∈ bs, allCoinMut b) :
    (applySeq s bs).read .bestBlock = s.read .bestBlock ∧
    (applySeq s bs).read .headBlocks = s.read .headBlocks := by
  induction bs generalizing s with
  | nil => exact ⟨rfl, rfl⟩
  | cons b rest ih =>
    have hb := read_applyBatch_tipKeys s b (h b (List.mem_cons_self b rest))
    have hrest := ih (applyBatch s b) (fun b' hb' => h b' (List.mem_cons_of_mem b hb'))
    exact ⟨hrest.1.trans hb.1, hrest.2.trans hb.2⟩

/-- After the transitional prefix and any sequence of coin mutations the
store is in the transitional tip state, with the marker reading
`[hashBlock, oldTip]`. -/
theorem applyBatch_transOps (s : Store) (hb old : Nat) (t : List DBOp)
    (ht : allCoinMut t) :
    (applyBatch s (tipTransOps hb old ++ t)).read .bestBlock = none ∧
    (applyBatch s (tipTransOps hb old ++ t)).read .headBlocks =
      some (.hashList [hb, old]) := by
  rw [applyBatch_append]
  have hbase :
      (applyBatch s (tipTransOps hb old)).read .bestBlock = none ∧
      (applyBatch s (tipTransOps hb old)).read .headBlocks =
        some (.hashList [hb, old]) := by
    show ((s.eraseKey .bestBlock).writeKey .headBlocks _).read .bestBlock = none ∧ _
    constructor
    · rw [Store.read_writeKey_ne _ _ (by simp), Store.read_eraseKey_self]
    · exact Store.read_writeKey_self _ _ _
  have hpres := read_applyBatch_tipKeys (applyBatch s (tipTransOps hb old)) t ht
  exact ⟨hpres.1.trans hbase.1, hpres.2.trans hbase.2⟩

/-- Any batch ending in the steady-tip operations leaves the store in
steady state at the new tip. -/
theorem applyBatch_steadyOps (s : Store) (hb : Nat) (t : List DBOp) :
    (applyBatch s (t ++ tipSteadyOps hb)).read .bestBlock = some (.hash hb) ∧
    (applyBatch s (t ++ tipSteadyOps hb)).read .headBlocks = none := by
  rw [applyBatch_append]
  have hred : applyBatch (applyBatch s t) (tipSteadyOps hb) =
      ((applyBatch s t).eraseKey .headBlocks).writeKey .bestBlock (.hash hb) := rfl
  rw [hred]
  constructor
  · exact Store.read_writeKey_self _ _ _
  · rw [Store.read_writeKey_ne _ _ (by simp), Store.read_eraseKey_self]

/-- Inversion of a successful `batchWriteParts`. -/
theorem batchWriteParts_ok {se : List DBOp → Nat} {bs : Nat} {st : Store}
    {mapCoins : CCoinsMap} {hashBlock : Nat} {p : BWParts}
    (h : batchWriteParts se bs st mapCoins hashBlock = .ok p) :
    p.flushed = (drainLoop se bs mapCoins (tipTransOps hashBlock p.oldTip)).1 ∧
    p.finalBatch =
      (drainLoop se bs mapCoins (tipTransOps hashBlock p.oldTip)).2.1 ++
        tipSteadyOps hashBlock ∧
    p.residual = (drainLoop se bs mapCoins (tipTransOps hashBlock p.oldTip)).2.2 := by
  unfold batchWriteParts at h
  repeat' split at h
  all_goals try cases h
  all_goals exact ⟨rfl, rfl, rfl⟩

theorem applySeq_append (s : Store) (a b : List (List DBOp)) :
    applySeq s (a ++ b) = applySeq (applySeq s a) b :=
  List.foldl_append _ _ _ _

/-- C1: in every successful commit, the erase of the best-block key and
the write of the head-blocks marker `[new_tip, old_tip]` precede every
coin operation drained from the changeset, and the erase of the
head-blocks marker plus the write of the best-block key sit at the end
of the final batch, after all coin operations; consequently, starting
from a steady or transitional store, the store state after every flushed
batch prefix is again steady or transitional. -/
theorem C1_commit_tip_ordering_and_invariant
    (se : List DBOp → Nat) (bs : Nat) (st : Store) (mapCoins : CCoinsMap)
    (hashBlock : Nat) (p : BWParts)
    (hparts : batchWriteParts se bs st mapCoins hashBlock = .ok p)
    (hinit : steadyState st ∨ transitionalState st) :
    ((p.flushed ++ [p.finalBatch]).flatten =
        tipTransOps hashBlock p.oldTip ++
          (drainOps mapCoins ++ tipSteadyOps hashBlock) ∧
      allCoinMut (drainOps mapCoins)) ∧
    (∃ t, p.finalBatch = t ++ tipSteadyOps hashBlock) ∧
    (∃ t, (p.flushed ++ [p.finalBatch]).head? =
        some (tipTransOps hashBlock p.oldTip ++ t)) ∧
    (∀ pre suf, p.flushed ++ [p.finalBatch] = pre ++ suf →
      steadyState (applySeq st pre) ∨ transitionalState (applySeq st pre)) := by
  obtain ⟨hfl, hfin, -⟩ := batchWriteParts_ok hparts
  have hjoin := drainLoop_join se bs mapCoins (tipTransOps hashBlock p.oldTip)
  obtain ⟨t, ht, hcase⟩ :=
    drainLoop_shape se bs mapCoins (tipTransOps hashBlock p.oldTip)
  refine ⟨⟨?_, drainOps_allCoinMut mapCoins⟩, ⟨_, hfin⟩, ?_, ?_⟩
  · rw [List.flatten_append, List.flatten_cons, List.flatten_nil,
      List.append_nil, hfl, hfin, ← List.append_assoc, hjoin, List.append_assoc]
  · rcases hcase with ⟨hfl0, hfin0⟩ | ⟨rest2, hfl2, _, _⟩
    · refine ⟨t ++ tipSteadyOps hashBlock, ?_⟩
      rw [hfl, hfl0, List.nil_append, List.head?_cons, hfin, hfin0,
        List.append_assoc]
    · refine ⟨t, ?_⟩
      rw [hfl, hfl2, List.cons_append, List.head?_cons]
  · intro pre suf heq
    rcases hcase with ⟨hfl0, hfin0⟩ | ⟨rest2, hfl2, hrest2, hfin2⟩
    · rw [hfl, hfl0, List.nil_append] at heq
      cases pre with
      | nil => exact hinit
      | cons b pre' =>
        rw [List.cons_append] at heq
        injection heq with hb hrest
        have hpre' : pre' = [] := (List.append_eq_nil.mp hrest.symm).1
        subst hpre'
        subst hb
        left
        have := applyBatch_steadyOps st hashBlock
          (drainLoop se bs mapCoins (tipTransOps hashBlock p.oldTip)).2.1
        rw [← hfin] at this
        exact ⟨⟨hashBlock, this.1⟩, this.2⟩
    · rw [hfl, hfl2, List.cons_append] at heq
      cases pre with
      | nil => exact hinit
      | cons b pre' =>
        rw [List.cons_append] at heq
        injection heq with hb hrest
        subst hb
        have htrans := applyBatch_transOps st hashBlock p.oldTip t ht
        have hstep : applySeq st ((tipTransOps hashBlock p.oldTip ++ t) :: pre') =
            applySeq (applyBatch st (tipTransOps hashBlock p.oldTip ++ t)) pre' := rfl
        rcases List.append_eq_append_iff.mp hrest with
          ⟨a', ha1, ha2⟩ | ⟨c', hc1, hc2⟩
        · cases a' with
          | nil =>
            right
            rw [hstep]
            have hmem : ∀ b' ∈ pre', allCoinMut b' := by
              intro b' hb'
              rw [ha1, List.append_nil] at hb'
              exact hrest2 b' hb'
            have hpres := applySeq_tipKeys pre'
              (applyBatch st (tipTransOps hashBlock p.oldTip ++ t)) hmem
            exact ⟨hpres.1.trans htrans.1,
              hashBlock, p.oldTip, hpres.2.trans htrans.2⟩
          | cons x a'' =>
            rw [List.cons_append] at ha2
            injection ha2 with hx ha''
            have ha''nil : a'' = [] := (List.append_eq_nil.mp ha''.symm).1
            subst ha''nil
            left
            rw [hstep, ha1, applySeq_append]
            have hsteady := applyBatch_steadyOps
              (applySeq (applyBatch st (tipTransOps hashBlock p.oldTip ++ t)) rest2)
              hashBlock
              (drainLoop se bs mapCoins (tipTransOps hashBlock p.oldTip)).2.1
            rw [← hfin] at hsteady
            rw [← hx]
            exact ⟨⟨hashBlock, hsteady.1⟩, hsteady.2⟩
        · subst hc1
          right
          rw [hstep]
          have hmem : ∀ b' ∈ pre', allCoinMut b' := by
            intro b' hb'
            exact hrest2 b' (List.mem_append.mpr (Or.inl hb'))
          have hpres := applySeq_tipKeys pre'
            (applyBatch st (tipTransOps hashBlock p.oldTip ++ t)) hmem
          exact ⟨hpres.1.trans htrans.1,
            hashBlock, p.oldTip, hpres.2.trans htrans.2⟩

/-! ## `BatchWrite` inversion and failure modes -/

theorem BatchWrite_ok {engineOk : List DBOp → Bool} {se : List DBOp → Nat}
    {bs : Nat} {st : Store} {mapCoins : CCoinsMap} {hashBlock : Nat}
    {r : Store × CCoinsMap × Bool}
    (h : BatchWrite engineOk se bs st mapCoins hashBlock = .ok r) :
    ∃ p, batchWriteParts se bs st mapCoins hashBlock = .ok p ∧
      r.2.1 = p.residual ∧ r.2.2 = engineOk p.finalBatch ∧
      r.1 = (if engineOk p.finalBatch then
               applyBatch
                 (p.flushed.foldl
                   (fun s b => if engineOk b then applyBatch s b else s) st)
                 p.finalBatch
             else
               p.flushed.foldl
                 (fun s b => if engineOk b then applyBatch s b else s) st) := by
  unfold BatchWrite at h
  cases hp : batchWriteParts se bs st mapCoins hashBlock with
  | error e =>
    rw [hp] at h
    cases h
  | ok p =>
    rw [hp] at h
    simp only [Except.map] at h
    injection h with h2
    refine ⟨p, rfl, ?_, ?_, ?_⟩ <;> rw [← h2]

/-- C4 counterexample: a changeset consisting of one loaded entry is not
drained — after `BatchWrite` the residual changeset still holds that
entry, so the changeset map is not empty. -/
theorem C4_counterexample :
    BatchWrite (fun _ => true) List.length 100
        [(.bestBlock, .hash 5)]
        [(⟨3, 0⟩, ⟨⟨⟨8, false, false⟩, 10, false, true⟩, true⟩)] 9 =
      .ok ([(.bestBlock, .hash 9)],
        [(⟨3, 0⟩, ⟨⟨⟨8, false, false⟩, 10, false, true⟩, true⟩)], true) ∧
    ([(⟨3, 0⟩, ⟨⟨⟨8, false, false⟩, 10, false, true⟩, true⟩)] : CCoinsMap) ≠ [] :=
  ⟨rfl, by simp⟩

/-- C4 (amended): `BatchWrite` removes from the changeset every entry
except those whose coin carries the loaded marker; the residual map is
exactly the loaded entries, so it is empty precisely when the changeset
held no loaded entries. -/
theorem C4_changeset_drained_except_loaded
    (engineOk : List DBOp → Bool) (se : List DBOp → Nat) (bs : Nat)
    (st : Store) (mapCoins : CCoinsMap) (hashBlock : Nat)
    (st' : Store) (rem : CCoinsMap) (ok : Bool)
    (h : BatchWrite engineOk se bs st mapCoins hashBlock = .ok (st', rem, ok)) :
    rem = mapCoins.filter (fun e => e.2.coin.fLoaded) := by
  obtain ⟨p, hp, hrem, -, -⟩ := BatchWrite_ok h
  obtain ⟨-, -, hres⟩ := batchWriteParts_ok hp
  exact hrem.trans (hres.trans (drainLoop_residual se bs mapCoins _))

theorem computeOldTip_ne_nullHash (st : Store) (hashBlock : Nat) :
    computeOldTip st hashBlock ≠ .error .nullHash := by
  unfold computeOldTip
  repeat' split
  all_goals simp

/-- C8: with a non-null new tip the null-hash assertion cannot fire, and
`BatchWrite` returns `false` exactly when the engine write of the final
batch fails; passing the zero hash makes `BatchWrite` die on the
assertion (modelled as the `nullHash` error) instead of returning a
recoverable `false`. -/
theorem C8_commit_failure_modes
    (engineOk : List DBOp → Bool) (se : List DBOp → Nat) (bs : Nat) :
    (∀ st mapCoins,
      BatchWrite engineOk se bs st mapCoins 0 = .error .nullHash) ∧
    (∀ st mapCoins hashBlock, hashBlock ≠ 0 →
      batchWriteParts se bs st mapCoins hashBlock ≠ .error .nullHash) ∧
    (∀ st mapCoins hashBlock p r,
      batchWriteParts se bs st mapCoins hashBlock = .ok p →
      BatchWrite engineOk se bs st mapCoins hashBlock = .ok r →
      (r.2.2 = false ↔ engineOk p.finalBatch = false)) := by
  refine ⟨?_, ?_, ?_⟩
  · intro st mapCoins
    rfl
  · intro st mapCoins hashBlock hne
    unfold batchWriteParts
    rw [if_neg hne]
    cases hc : computeOldTip st hashBlock with
    | error e =>
      intro hcontra
      injection hcontra with he
      exact computeOldTip_ne_nullHash st hashBlock (he ▸ hc)
    | ok oldTip => simp
  · intro st mapCoins hashBlock p r hp hr
    obtain ⟨p', hp', -, hok, -⟩ := BatchWrite_ok hr
    have hpp : p' = p := by
      rw [hp] at hp'
      injection hp' with h2
      exact h2.symm
    subst hpp
    rw [hok]

/-! ## Overlay lookup lemmas and the two-tier read path -/

/-- On a sorted overlay the seek-based `GetLoadedCoin` is exactly
membership lookup by outpoint hash. -/
theorem GetLoadedCoin_eq_some_iff {ov : Overlay} (hs : Overlay.Sorted ov)
    (h : Nat) (lc : LoadedCoin) :
    GetLoadedCoin ov h = some lc ↔ (h, lc) ∈ ov := by
  induction ov with
  | nil => simp [GetLoadedCoin, Overlay.seek]
  | cons x xs ih =>
    have hs' := hs
    rw [Overlay.Sorted, List.pairwise_cons] at hs'
    obtain ⟨hx, hxs⟩ := hs'
    by_cases hle : h ≤ x.1
    · by_cases heq : x.1 = h
      · simp only [GetLoadedCoin, Overlay.seek, if_pos hle, if_pos heq]
        constructor
        · intro hlc
          injection hlc with hlc
          have hex : (h, lc) = x := by
            rw [← hlc, ← heq]
          exact List.mem_cons.mpr (Or.inl hex)
        · intro hmem
          rcases List.mem_cons.mp hmem with hmx | hmxs
          · rw [← hmx]
          · exact absurd (heq ▸ hx (h, lc) hmxs) (lt_irrefl h)
      · simp only [GetLoadedCoin, Overlay.seek, if_pos hle, if_neg heq]
        constructor
        · intro hlc
          cases hlc
        · intro hmem
          rcases List.mem_cons.mp hmem with hmx | hmxs
          · exact absurd (congrArg Prod.fst hmx).symm heq
          · exact absurd (hx (h, lc) hmxs) (not_lt.mpr hle)
    · have hrec : GetLoadedCoin (x :: xs) h = GetLoadedCoin xs h := by
        simp [GetLoadedCoin, Overlay.seek, hle]
      rw [hrec, ih hxs]
      constructor
      · exact fun hm => List.mem_cons_of_mem x hm
      · intro hmem
        rcases List.mem_cons.mp hmem with hmx | hmxs
        · exact absurd (le_of_eq (congrArg Prod.fst hmx)) hle
        · exact hmxs

theorem GetLoadedCoin_eq_none_iff {ov : Overlay} (hs : Overlay.Sorted ov)
    (h : Nat) :
    GetLoadedCoin ov h = none ↔ ∀ lc, (h, lc) ∉ ov := by
  constructor
  · intro hn lc hmem
    rw [← GetLoadedCoin_eq_some_iff hs h lc] at hmem
    rw [hn] at hmem
    cases hmem
  · intro hno
    cases hg : GetLoadedCoin ov h with
    | none => rfl
    | some lc => exact absurd ((GetLoadedCoin_eq_some_iff hs h lc).mp hg) (hno lc)

/-- On a primary-table miss, `GetCoin` is decided by the overlay lookup
alone. -/
theorem GetCoin_primary_miss (hf : COutPoint → Nat) (db : Store)
    (ov : Overlay) (o : COutPoint) (coin₀ : Coin)
    (hprim : db.read (.coin o) = none) :
    GetCoin hf db ov o coin₀ =
      match GetLoadedCoin ov (hf o) with
      | some lc => (!lc.fSpent, { lc.coin with fLoaded := true })
      | none => (false, coin₀) := by
  unfold GetCoin
  rw [hprim]

/-- C3: `GetCoin` consults the primary coin table first and returns a
primary hit ignoring the overlay; on a primary miss it looks the outpoint
hash up in the overlay, returning the record's coin with the loaded
marker set when the record is present and not spent, and no coin (a
false return) when the record is spent or absent. -/
theorem C3_two_tier_lookup (hf : COutPoint → Nat) (db : Store) (ov : Overlay)
    (o : COutPoint) (hs : Overlay.Sorted ov) :
    (∀ c coin₀, db.read (.coin o) = some (.coinVal c) →
        GetCoin hf db ov o coin₀ = (true, c)) ∧
    (db.read (.coin o) = none →
      (∀ lc coin₀, (hf o, lc) ∈ ov →
          GetCoin hf db ov o coin₀ =
            (!lc.fSpent, { lc.coin with fLoaded := true })) ∧
      (∀ coin₀, (∀ lc, (hf o, lc) ∉ ov) →
          GetCoin hf db ov o coin₀ = (false, coin₀))) := by
  constructor
  · intro c coin₀ hread
    unfold GetCoin
    rw [hread]
  · intro hread
    constructor
    · intro lc coin₀ hmem
      rw [GetCoin_primary_miss hf db ov o coin₀ hread,
        (GetLoadedCoin_eq_some_iff hs (hf o) lc).mpr hmem]
    · intro coin₀ hno
      rw [GetCoin_primary_miss hf db ov o coin₀ hread,
        (GetLoadedCoin_eq_none_iff hs (hf o)).mpr hno]

/-- C10: when the primary table misses and the overlay holds a record
for the outpoint hash that is marked spent, `GetCoin` returns false but
has already overwritten the caller-supplied coin argument with the
overlay record's coin, loaded marker set — the out-parameter is not left
untouched on a false return. -/
theorem C10_getcoin_out_param_clobbered
    (hf : COutPoint → Nat) (db : Store) (ov : Overlay) (O : COutPoint)
    (lc : LoadedCoin) (coin₀ : Coin) (hs : Overlay.Sorted ov)
    (hprim : db.read (.coin O) = none) (hmem : (hf O, lc) ∈ ov)
    (hspent : lc.fSpent = true) :
    GetCoin hf db ov O coin₀ = (false, { lc.coin with fLoaded := true }) := by
  rw [GetCoin_primary_miss hf db ov O coin₀ hprim,
    (GetLoadedCoin_eq_some_iff hs (hf O) lc).mpr hmem]
  simp [hspent]

/-! ## C2: spend removes visibility (amended) -/

theorem nodup_keys_eq {α β : Type} {l : List (α × β)}
    (h : (l.map Prod.fst).Nodup) {a : α} {b b' : β}
    (h1 : (a, b) ∈ l) (h2 : (a, b') ∈ l) : b = b' := by
  induction l with
  | nil => cases h1
  | cons x xs ih =>
    rw [List.map_cons, List.nodup_cons] at h
    rcases List.mem_cons.mp h1 with hx1 | hxs1
    · rcases List.mem_cons.mp h2 with hx2 | hxs2
      · rw [← hx1] at hx2
        injection hx2 with h1' h2'
        exact h2'.symm
      · exfalso
        apply h.1
        rw [← hx1]
        exact List.mem_map.mpr ⟨(a, b'), hxs2, rfl⟩
    · rcases List.mem_cons.mp h2 with hx2 | hxs2
      · exfalso
        apply h.1
        rw [← hx2]
        exact List.mem_map.mpr ⟨(a, b), hxs1, rfl⟩
      · exact ih h.2 hxs1 hxs2

theorem coinOp_opKey (o : COutPoint) (c : Coin) :
    (coinOp o c).opKey = .coin o := by
  unfold coinOp
  by_cases h : c.IsSpent <;> simp [h, DBOp.opKey]

/-- The store a fully successful `BatchWrite` leaves behind: the initial
store with the transitional ops, the drained coin ops and the steady ops
applied in order. -/
theorem BatchWrite_allTrue_store {se : List DBOp → Nat} {bs : Nat}
    {st : Store} {mapCoins : CCoinsMap} {hashBlock : Nat}
    {r : Store × CCoinsMap × Bool} {p : BWParts}
    (h : BatchWrite (fun _ => true) se bs st mapCoins hashBlock = .ok r)
    (hp : batchWriteParts se bs st mapCoins hashBlock = .ok p) :
    r.1 = applyBatch st
      (tipTransOps hashBlock p.oldTip ++
        (drainOps mapCoins ++ tipSteadyOps hashBlock)) := by
  obtain ⟨p', hp', -, -, hst⟩ := BatchWrite_ok h
  rw [hp] at hp'
  injection hp' with h2
  subst h2
  obtain ⟨hfl, hfin, -⟩ := batchWriteParts_ok hp
  have hjoin := drainLoop_join se bs mapCoins (tipTransOps hashBlock p.oldTip)
  simp only [if_true] at hst
  have hfold : List.foldl (fun s b => applyBatch s b) st p.flushed =
      applySeq st p.flushed := rfl
  rw [hfold] at hst
  rw [hst, applySeq_eq_applyBatch_flatten, ← applyBatch_append, hfl, hfin,
    ← List.append_assoc, hjoin, List.append_assoc]

/-- C2 counterexample: commit a changeset that spends outpoint (2,0)
(dirty, not loaded, spent) while the overlay holds a record for its hash
that is itself marked spent.  The claim says `have_coin` must then be
false (the overlay record is not unspent), but the code returns true:
`HaveLoadedCoin` ignores the spent flag. -/
theorem C2_counterexample :
    BatchWrite (fun _ => true) List.length 100
        [(.bestBlock, .hash 5),
         (.coin ⟨2, 0⟩, .coinVal ⟨⟨7, false, false⟩, 10, false, false⟩)]
        [(⟨2, 0⟩, ⟨⟨⟨0, true, false⟩, 10, false, false⟩, true⟩)] 9 =
      .ok ([(.bestBlock, .hash 9)], [], true) ∧
    Coin.IsSpent ⟨⟨0, true, false⟩, 10, false, false⟩ = true ∧
    (∀ kv ∈
        ([(2, ⟨⟨2, 0⟩, ⟨⟨7, false, false⟩, 10, false, false⟩, true⟩)] : Overlay),
      kv.2.fSpent = true) ∧
    HaveCoin (fun o => o.hash) [(.bestBlock, .hash 9)]
      [(2, ⟨⟨2, 0⟩, ⟨⟨7, false, false⟩, 10, false, false⟩, true⟩)] ⟨2, 0⟩ = true :=
  ⟨rfl, rfl, by decide, rfl⟩

/-- C2 (amended): after a successful commit whose changeset contains
outpoint `O` as a dirty, non-loaded, spent entry, `GetCoin` finds a coin
for `O` only if the overlay holds an unspent record for `O`'s hash — but
`HaveCoin` returns true whenever the overlay holds any record for the
hash, spent or not. -/
theorem C2_spend_removes_visibility
    (hf : COutPoint → Nat) (se : List DBOp → Nat) (bs : Nat)
    (st st' : Store) (ov : Overlay) (mapCoins : CCoinsMap)
    (hashBlock : Nat) (rem : CCoinsMap) (ok : Bool)
    (O : COutPoint) (e : CacheEntry) (coin₀ : Coin)
    (hcommit : BatchWrite (fun _ => true) se bs st mapCoins hashBlock =
      .ok (st', rem, ok))
    (hmem : (O, e) ∈ mapCoins) (hdirty : e.dirty = true)
    (hnl : e.coin.fLoaded = false) (hspent : e.coin.IsSpent = true)
    (hnodup : (mapCoins.map Prod.fst).Nodup)
    (hs : Overlay.Sorted ov) :
    (HaveCoin hf st' ov O = true ↔ ∃ lc, (hf O, lc) ∈ ov) ∧
    ((GetCoin hf st' ov O coin₀).1 = true ↔
      ∃ lc, (hf O, lc) ∈ ov ∧ lc.fSpent = false) := by
  obtain ⟨p, hp, -, -, -⟩ := BatchWrite_ok hcommit
  have hst' : st' = applyBatch st
      (tipTransOps hashBlock p.oldTip ++
        (drainOps mapCoins ++ tipSteadyOps hashBlock)) :=
    BatchWrite_allTrue_store hcommit hp
  have hread : st'.read (.coin O) = none := by
    have heff : effectOn
        (tipTransOps hashBlock p.oldTip ++
          (drainOps mapCoins ++ tipSteadyOps hashBlock)) (.coin O) = some none := by
      rw [effectOn_append, effectOn_append]
      have hsteady : effectOn (tipSteadyOps hashBlock) (.coin O) = none := by
        apply effectOn_eq_none
        intro op hop
        rcases List.mem_cons.mp hop with rfl | hop'
        · simp [DBOp.opKey]
        · rcases List.mem_cons.mp hop' with rfl | hcontra
          · simp [DBOp.opKey]
          · cases hcontra
      have hdrain : effectOn (drainOps mapCoins) (.coin O) = some none := by
        have hfmem : (O, e) ∈
            mapCoins.filter (fun e => !e.2.coin.fLoaded && e.2.dirty) :=
          List.mem_filter.mpr ⟨hmem, by simp [hnl, hdirty]⟩
        have hopmem : coinOp O e.coin ∈ drainOps mapCoins :=
          List.mem_map.mpr ⟨(O, e), hfmem, rfl⟩
        have heq : coinOp O e.coin = .erase (.coin O) := by
          unfold coinOp
          rw [if_pos hspent]
        have hres := effectOn_eq_of_unique (drainOps mapCoins) (.coin O)
          (coinOp O e.coin) hopmem (coinOp_opKey O e.coin) ?_
        · rw [hres, heq]
          rfl
        · intro op hop hkey
          obtain ⟨e', he'mem, he'⟩ := List.mem_map.mp hop
          rw [← he', coinOp_opKey] at hkey
          have hO : e'.1 = O := by
            injection hkey
          have he'map : (e'.1, e'.2) ∈ mapCoins :=
            List.mem_filter.mp he'mem |>.1
          rw [hO] at he'map
          have he'eq : e'.2 = e := nodup_keys_eq hnodup he'map hmem
          rw [← he', hO, he'eq]
      rw [hsteady, hdrain]
    rw [hst', read_applyBatch, heff]
    rfl
  constructor
  · unfold HaveCoin
    rw [hread, HaveLoadedCoin]
    constructor
    · intro hsome
      obtain ⟨lc, hlc⟩ := Option.isSome_iff_exists.mp hsome
      exact ⟨lc, (GetLoadedCoin_eq_some_iff hs (hf O) lc).mp hlc⟩
    · intro hex
      obtain ⟨lc, hlc⟩ := hex
      rw [(GetLoadedCoin_eq_some_iff hs (hf O) lc).mpr hlc]
      rfl
  · rw [GetCoin_primary_miss hf st' ov O coin₀ hread]
    cases hg : GetLoadedCoin ov (hf O) with
    | some lc =>
      have hlcmem := (GetLoadedCoin_eq_some_iff hs (hf O) lc).mp hg
      simp only []
      constructor
      · intro htrue
        refine ⟨lc, hlcmem, ?_⟩
        simpa using htrue
      · intro hex
        obtain ⟨lc', hlc'mem, hlc'spent⟩ := hex
        have hlc'eq : lc' = lc := by
          have hg' := (GetLoadedCoin_eq_some_iff hs (hf O) lc').mpr hlc'mem
          rw [hg] at hg'
          injection hg' with h2
          exact h2.symm
        rw [← hlc'eq]
        simp [hlc'spent]
    | none =>
      simp only []
      constructor
      · intro htrue
        cases htrue
      · intro hex
        obtain ⟨lc', hlc'mem, -⟩ := hex
        have hg' := (GetLoadedCoin_eq_some_iff hs (hf O) lc').mpr hlc'mem
        rw [hg] at hg'
        cases hg'

/-! ## Migration lemmas -/

theorem voutEntries_key (t : Nat) (cc : CCoins) :
    ∀ (l : List CTxOut) (i : Nat) (q : COutPoint × Coin),
      q ∈ voutEntries t cc i l → q.1.hash = t ∧ i ≤ q.1.n := by
  intro l
  induction l with
  | nil => intro i q hq; cases hq
  | cons o rest ih =>
    intro i q hq
    rw [voutEntries] at hq
    rcases List.mem_append.mp hq with hh | ht
    · by_cases hsp : spendable o = true
      · rw [if_pos hsp] at hh
        rcases List.mem_cons.mp hh with heq | hcontra
        · rw [heq]
          exact ⟨rfl, le_refl _⟩
        · cases hcontra
      · rw [if_neg hsp] at hh
        cases hh
    · obtain ⟨h1, h2⟩ := ih (i + 1) q ht
      exact ⟨h1, le_trans (Nat.le_succ i) h2⟩

theorem voutEntries_uniq (t : Nat) (cc : CCoins) :
    ∀ (l : List CTxOut) (i : Nat) (o : COutPoint) (c c' : Coin),
      (o, c) ∈ voutEntries t cc i l → (o, c') ∈ voutEntries t cc i l →
      c = c' := by
  intro l
  induction l with
  | nil => intro i o c c' h1 _; cases h1
  | cons out rest ih =>
    intro i o c c' h1 h2
    rw [voutEntries] at h1 h2
    have hhead : ∀ cx, (o, cx) ∈
        (if spendable out then
          [((⟨t, i⟩ : COutPoint), (⟨out, cc.nHeight, cc.fCoinBase, false⟩ : Coin))]
        else []) → o.n = i ∧ cx = ⟨out, cc.nHeight, cc.fCoinBase, false⟩ := by
      intro cx hcx
      by_cases hsp : spendable out = true
      · rw [if_pos hsp] at hcx
        have he := List.mem_singleton.mp hcx
        injection he with he1 he2
        exact ⟨congrArg COutPoint.n he1, he2⟩
      · rw [if_neg hsp] at hcx
        cases hcx
    have htail : ∀ cx, (o, cx) ∈ voutEntries t cc (i + 1) rest → i + 1 ≤ o.n :=
      fun cx hcx => (voutEntries_key t cc rest (i + 1) (o, cx) hcx).2
    rcases List.mem_append.mp h1 with hh1 | ht1 <;>
      rcases List.mem_append.mp h2 with hh2 | ht2
    · exact ((hhead c hh1).2).trans ((hhead c' hh2).2).symm
    · exfalso
      have ha := (hhead c hh1).1
      have hb := htail c' ht2
      omega
    · exfalso
      have ha := (hhead c' hh2).1
      have hb := htail c ht1
      omega
    · exact ih (i + 1) o c c' ht1 ht2

theorem voutEntries_keys_nodup (t : Nat) (cc : CCoins) :
    ∀ (l : List CTxOut) (i : Nat),
      ((voutEntries t cc i l).map Prod.fst).Nodup := by
  intro l
  induction l with
  | nil => intro i; simp [voutEntries]
  | cons out rest ih =>
    intro i
    rw [voutEntries]
    by_cases hsp : spendable out = true
    · rw [if_pos hsp]
      simp only [List.singleton_append, List.map_cons, List.nodup_cons]
      refine ⟨?_, ih (i + 1)⟩
      intro hmem
      obtain ⟨q, hq, hqe⟩ := List.mem_map.mp hmem
      have hge := (voutEntries_key t cc rest (i + 1) q hq).2
      rw [hqe] at hge
      simp at hge
    · rw [if_neg hsp, List.nil_append]
      exact ih (i + 1)

theorem voutEntries_length (t : Nat) (cc : CCoins) :
    ∀ (l : List CTxOut) (i : Nat),
      (voutEntries t cc i l).length = (l.filter spendable).length := by
  intro l
  induction l with
  | nil => intro i; rfl
  | cons out rest ih =>
    intro i
    rw [voutEntries, List.filter_cons]
    by_cases hsp : spendable out = true <;>
      simp [hsp, ih (i + 1)]

theorem upgradeLoop_no_shutdown (se : List DBOp → Nat) :
    ∀ (entries : List (Nat × DBValue)) (k : Nat) (batch : List DBOp) (st : Store),
      (∀ q ∈ entries, q.2.isLegacy = true) →
      upgradeLoop se none entries k batch st =
        (applyBatch st (batch ++ allMigOps entries), true) := by
  intro entries
  induction entries with
  | nil =>
    intro k batch st _
    simp [upgradeLoop, isShutdown, allMigOps]
  | cons q rest ih =>
    intro k batch st hwt
    obtain ⟨t, v⟩ := q
    have hv := hwt (t, v) (List.mem_cons_self _ _)
    have hrest := fun q' hq' => hwt q' (List.mem_cons_of_mem _ hq')
    cases v with
    | legacyVal cc =>
      have hshut : isShutdown none k = false := rfl
      simp only [upgradeLoop, hshut, Bool.false_eq_true, if_false]
      have hops : allMigOps ((t, DBValue.legacyVal cc) :: rest) =
          recordOps t cc ++ allMigOps rest := rfl
      by_cases hf : se (batch ++ recordOps t cc) > upgradeBatchSize
      · rw [if_pos hf, ih (k + 1) [] _ hrest, List.nil_append, hops,
          ← applyBatch_append, ← List.append_assoc]
      · rw [if_neg hf, ih (k + 1) _ _ hrest, hops, ← List.append_assoc]
    | hash n => simp [DBValue.isLegacy] at hv
    | hashList l => simp [DBValue.isLegacy] at hv
    | coinVal c => simp [DBValue.isLegacy] at hv

theorem upgradeLoop_shutdown (se : List DBOp → Nat) (m : Nat) :
    ∀ (entries : List (Nat × DBValue)) (k : Nat) (batch : List DBOp) (st : Store),
      (∀ q ∈ entries, q.2.isLegacy = true) →
      k ≤ m → m ≤ k + entries.length →
      upgradeLoop se (some m) entries k batch st =
        (applyBatch st (batch ++ allMigOps (entries.take (m - k))), false) := by
  intro entries
  induction entries with
  | nil =>
    intro k batch st _ hkm hmk
    have hm : m = k := le_antisymm (by simpa using hmk) hkm
    have hshut : isShutdown (some m) k = true := by
      simp [isShutdown, hm]
    show (applyBatch st batch, !isShutdown (some m) k) = _
    rw [hshut]
    simp [allMigOps]
  | cons q rest ih =>
    intro k batch st hwt hkm hmk
    obtain ⟨t, v⟩ := q
    by_cases hk : m ≤ k
    · have hshut : isShutdown (some m) k = true := by
        simp [isShutdown, hk]
      have hm0 : m - k = 0 := by omega
      simp only [upgradeLoop]
      rw [if_pos hshut, hm0]
      simp [allMigOps]
    · have hks : k + 1 ≤ m := Nat.succ_le_of_lt (lt_of_not_le hk)
      have hshut : isShutdown (some m) k = false := by
        simp [isShutdown]
        omega
      have hv := hwt (t, v) (List.mem_cons_self _ _)
      have hrest := fun q' hq' => hwt q' (List.mem_cons_of_mem _ hq')
      cases v with
      | legacyVal cc =>
        simp only [upgradeLoop, hshut, Bool.false_eq_true, if_false]
        have htake : ((t, DBValue.legacyVal cc) :: rest).take (m - k) =
            (t, DBValue.legacyVal cc) :: rest.take (m - (k + 1)) := by
          have : m - k = (m - (k + 1)) + 1 := by omega
          rw [this, List.take_succ_cons]
        have hops : allMigOps ((t, DBValue.legacyVal cc) :: rest.take (m - (k + 1))) =
            recordOps t cc ++ allMigOps (rest.take (m - (k + 1))) := rfl
        have hmk' : m ≤ (k + 1) + rest.length := by
          simp only [List.length_cons] at hmk
          omega
        by_cases hf : se (batch ++ recordOps t cc) > upgradeBatchSize
        · rw [if_pos hf, ih (k + 1) [] _ hrest hks hmk', List.nil_append, htake,
            hops, ← applyBatch_append, ← List.append_assoc]
        · rw [if_neg hf, ih (k + 1) _ _ hrest hks hmk', htake, hops,
            ← List.append_assoc]
      | hash n => simp [DBValue.isLegacy] at hv
      | hashList l => simp [DBValue.isLegacy] at hv
      | coinVal c => simp [DBValue.isLegacy] at hv

theorem sortedLegacy_perm (st : Store) :
    (sortedLegacy st).Perm (legacyList st) :=
  List.perm_insertionSort _ _

theorem Upgrade_no_shutdown (se : List DBOp → Nat) (st : Store)
    (hwt : ∀ q ∈ legacyList st, q.2.isLegacy = true) :
    Upgrade se none st = (applyBatch st (allMigOps (sortedLegacy st)), true) := by
  have hwt' : ∀ q ∈ sortedLegacy st, q.2.isLegacy = true :=
    fun q hq => hwt q ((sortedLegacy_perm st).mem_iff.mp hq)
  cases hleg : sortedLegacy st with
  | nil => simp [Upgrade, hleg, allMigOps, applyBatch]
  | cons a l =>
    rw [hleg] at hwt'
    simp only [Upgrade, hleg]
    rw [upgradeLoop_no_shutdown se (a :: l) 0 [] st hwt', List.nil_append]

/-- C6: when the shutdown latch becomes set at in-loop check `m` during
a migration run over a non-empty legacy table (`1 ≤ m ≤ N`), the scan
stops before processing record `m`, the batch accumulated so far —
including all modern writes and legacy erasures of the first `m`
records — is flushed to the store, and `Upgrade` returns false. -/
theorem C6_migration_cancellation (se : List DBOp → Nat) (st : Store) (m : Nat)
    (hwt : ∀ q ∈ legacyList st, q.2.isLegacy = true)
    (h1 : 1 ≤ m) (hN : m ≤ (sortedLegacy st).length) :
    Upgrade se (some m) st =
      (applyBatch st (allMigOps ((sortedLegacy st).take m)), false) := by
  have hwt' : ∀ q ∈ sortedLegacy st, q.2.isLegacy = true :=
    fun q hq => hwt q ((sortedLegacy_perm st).mem_iff.mp hq)
  cases hleg : sortedLegacy st with
  | nil =>
    rw [hleg] at hN
    simp at hN
    omega
  | cons a l =>
    rw [hleg] at hwt' hN
    simp only [Upgrade, hleg]
    rw [upgradeLoop_shutdown se m (a :: l) 0 [] st hwt' (Nat.zero_le m)
      (by simpa using hN), List.nil_append, Nat.sub_zero]

theorem mem_migEntries {L : List (Nat × DBValue)} {o : COutPoint} {c : Coin} :
    (o, c) ∈ migEntries L ↔
      ∃ cc, (o.hash, DBValue.legacyVal cc) ∈ L ∧
        (o, c) ∈ voutEntries o.hash cc 0 cc.vout := by
  unfold migEntries
  rw [List.mem_flatMap]
  constructor
  · rintro ⟨q, hqL, hqv⟩
    obtain ⟨t, v⟩ := q
    cases v with
    | legacyVal cc =>
      simp only [recEntriesOf] at hqv
      have hk := (voutEntries_key t cc cc.vout 0 (o, c) hqv).1
      refine ⟨cc, ?_, ?_⟩
      · rw [hk]
        exact hqL
      · rw [hk]
        exact hqv
    | hash n => simp only [recEntriesOf] at hqv; cases hqv
    | hashList l => simp only [recEntriesOf] at hqv; cases hqv
    | coinVal cv => simp only [recEntriesOf] at hqv; cases hqv
  · rintro ⟨cc, hL, hv⟩
    exact ⟨(o.hash, .legacyVal cc), hL, hv⟩

theorem mem_allMigOps {L : List (Nat × DBValue)} {op : DBOp} :
    op ∈ allMigOps L ↔
      (∃ t cc, (t, DBValue.legacyVal cc) ∈ L ∧ op = .erase (.coins t)) ∨
      (∃ q, q ∈ migEntries L ∧ op = .write (.coin q.1) (.coinVal q.2)) := by
  unfold allMigOps
  rw [List.mem_flatMap]
  constructor
  · rintro ⟨q, hqL, hqop⟩
    obtain ⟨t, v⟩ := q
    cases v with
    | legacyVal cc =>
      simp only [legacyRecordOps, recordOps] at hqop
      rcases List.mem_append.mp hqop with hw | he
      · obtain ⟨e, he, heq⟩ := List.mem_map.mp hw
        right
        refine ⟨e, ?_, heq.symm⟩
        rw [mem_migEntries]
        have hk := (voutEntries_key t cc cc.vout 0 e he).1
        obtain ⟨e1, e2⟩ := e
        simp only at hk
        refine ⟨cc, ?_, ?_⟩ <;> rw [hk] <;> assumption
      · left
        exact ⟨t, cc, hqL, (List.mem_singleton.mp he)⟩
    | hash n => cases hqop
    | hashList l => cases hqop
    | coinVal cv => cases hqop
  · rintro (⟨t, cc, hL, hop⟩ | ⟨q, hq, hop⟩)
    · refine ⟨(t, .legacyVal cc), hL, ?_⟩
      simp only [legacyRecordOps, recordOps]
      rw [hop]
      exact List.mem_append.mpr (Or.inr (List.mem_singleton.mpr rfl))
    · rw [mem_migEntries] at hq
      obtain ⟨q1, q2⟩ := q
      obtain ⟨cc, hL, hv⟩ := hq
      refine ⟨(q1.hash, .legacyVal cc), hL, ?_⟩
      simp only [legacyRecordOps, recordOps]
      rw [hop]
      exact List.mem_append.mpr (Or.inl (List.mem_map.mpr ⟨(q1, q2), hv, rfl⟩))

theorem migEntries_uniq {L : List (Nat × DBValue)}
    (hnodup : (L.map Prod.fst).Nodup) {o : COutPoint} {c c' : Coin}
    (h1 : (o, c) ∈ migEntries L) (h2 : (o, c') ∈ migEntries L) : c = c' := by
  rw [mem_migEntries] at h1 h2
  obtain ⟨cc, hL, hv⟩ := h1
  obtain ⟨cc', hL', hv'⟩ := h2
  have hvv : DBValue.legacyVal cc = DBValue.legacyVal cc' :=
    nodup_keys_eq hnodup hL hL'
  injection hvv with hcc
  subst hcc
  exact voutEntries_uniq o.hash cc cc.vout 0 o c c' hv hv'

theorem effectOn_allMigOps_coins_mem {L : List (Nat × DBValue)} {t : Nat}
    {cc : CCoins} (hmem : (t, DBValue.legacyVal cc) ∈ L) :
    effectOn (allMigOps L) (.coins t) = some none := by
  have hop : (DBOp.erase (.coins t)) ∈ allMigOps L :=
    mem_allMigOps.mpr (Or.inl ⟨t, cc, hmem, rfl⟩)
  rw [effectOn_eq_of_unique (allMigOps L) (.coins t) (.erase (.coins t)) hop rfl ?_]
  · rfl
  · intro op hopmem hkey
    rcases mem_allMigOps.mp hopmem with ⟨t', cc', hL', hop'⟩ | ⟨q, hq, hop'⟩
    · rw [hop'] at hkey ⊢
      simp only [DBOp.opKey] at hkey
      rw [hkey]
    · rw [hop'] at hkey
      simp only [DBOp.opKey] at hkey
      cases hkey

theorem effectOn_allMigOps_coins_not_mem {L : List (Nat × DBValue)} {t : Nat}
    (hno : ∀ v, (t, v) ∉ L) :
    effectOn (allMigOps L) (.coins t) = none := by
  apply effectOn_eq_none
  intro op hopmem
  rcases mem_allMigOps.mp hopmem with ⟨t', cc', hL', hop'⟩ | ⟨q, hq, hop'⟩
  · rw [hop']
    simp only [DBOp.opKey]
    intro hcontra
    injection hcontra with ht'
    rw [ht'] at hL'
    exact hno _ hL'
  · rw [hop']
    simp [DBOp.opKey]

theorem effectOn_allMigOps_coin {L : List (Nat × DBValue)} {o : COutPoint}
    (hnodup : (L.map Prod.fst).Nodup) :
    effectOn (allMigOps L) (.coin o) =
      match migLookup L o with
      | some c => some (some (.coinVal c))
      | none => none := by
  cases hml : migLookup L o with
  | some c =>
    unfold migLookup at hml
    cases hfind : (migEntries L).find? (fun q => decide (q.1 = o)) with
    | none => rw [hfind] at hml; cases hml
    | some q₀ =>
      rw [hfind] at hml
      have hq₀c : q₀.2 = c := by
        injection hml
      have hq₀o : q₀.1 = o := by
        have := List.find?_some hfind
        simpa using this
      have hq₀mem : q₀ ∈ migEntries L := List.mem_of_find?_eq_some hfind
      have hocmem : (o, c) ∈ migEntries L := by
        rw [← hq₀o, ← hq₀c]
        exact hq₀mem
      have hop : (DBOp.write (.coin o) (.coinVal c)) ∈ allMigOps L :=
        mem_allMigOps.mpr (Or.inr ⟨(o, c), hocmem, rfl⟩)
      have huniq : ∀ op ∈ allMigOps L, op.opKey = DBKey.coin o →
          op = DBOp.write (.coin o) (.coinVal c) := by
        intro op hopmem hkey
        rcases mem_allMigOps.mp hopmem with ⟨t', cc', hL', hop'⟩ | ⟨q, hq, hop'⟩
        · rw [hop'] at hkey
          simp only [DBOp.opKey] at hkey
          cases hkey
        · rw [hop'] at hkey ⊢
          simp only [DBOp.opKey] at hkey
          injection hkey with hq1
          obtain ⟨q1, q2⟩ := q
          simp only at hq1
          subst hq1
          have hq2 : q2 = c := migEntries_uniq hnodup hq hocmem
          rw [hq2]
      rw [effectOn_eq_of_unique (allMigOps L) (.coin o)
        (.write (.coin o) (.coinVal c)) hop rfl huniq]
      rfl
  | none =>
    unfold migLookup at hml
    cases hfind : (migEntries L).find? (fun q => decide (q.1 = o)) with
    | some q₀ => rw [hfind] at hml; cases hml
    | none =>
      have hnof := List.find?_eq_none.mp hfind
      apply effectOn_eq_none
      intro op hopmem
      rcases mem_allMigOps.mp hopmem with ⟨t', cc', hL', hop'⟩ | ⟨q, hq, hop'⟩
      · rw [hop']
        simp [DBOp.opKey]
      · rw [hop']
        simp only [DBOp.opKey]
        intro hcontra
        injection hcontra with hq1
        exact hnof q hq (by simp [hq1])

theorem Store.read_eq_some_mem : ∀ {s : Store} {k : DBKey} {v : DBValue},
    s.read k = some v → (k, v) ∈ s := by
  intro s
  induction s with
  | nil => intro k v h; cases h
  | cons kv rest ih =>
    intro k v h
    rw [Store.read] at h
    by_cases hk : kv.1 = k
    · rw [if_pos hk] at h
      injection h with h2
      have hkv : (k, v) = kv := by
        rw [← hk, ← h2]
      rw [hkv]
      exact List.mem_cons_self kv rest
    · rw [if_neg hk] at h
      exact List.mem_cons_of_mem kv (ih h)

theorem Store.read_isSome_of_mem : ∀ {s : Store} {k : DBKey} {v : DBValue},
    (k, v) ∈ s → (s.read k).isSome = true := by
  intro s
  induction s with
  | nil => intro k v h; cases h
  | cons kv rest ih =>
    intro k v h
    rw [Store.read]
    by_cases hk : kv.1 = k
    · rw [if_pos hk]
      rfl
    · rw [if_neg hk]
      rcases List.mem_cons.mp h with heq | hmem
      · exfalso
        apply hk
        rw [← heq]
      · exact ih hmem

theorem mem_legacyList {st : Store} {t : Nat} {v : DBValue} :
    (t, v) ∈ legacyList st ↔ (DBKey.coins t, v) ∈ st := by
  unfold legacyList
  rw [List.mem_filterMap]
  constructor
  · rintro ⟨kv, hkv, hf⟩
    obtain ⟨k1, v1⟩ := kv
    cases k1 with
    | coins t' =>
      simp only at hf
      injection hf with hf0
      injection hf0 with hf1 hf2
      rw [← hf1, ← hf2]
      exact hkv
    | bestBlock => cases hf
    | headBlocks => cases hf
    | coin o => cases hf
  · intro h
    exact ⟨(.coins t, v), h, rfl⟩

theorem legacy_keys_nodup {st : Store} (h : (st.map Prod.fst).Nodup) :
    ((legacyList st).map Prod.fst).Nodup := by
  induction st with
  | nil => simp [legacyList]
  | cons kv rest ih =>
    rw [List.map_cons, List.nodup_cons] at h
    obtain ⟨k1, v1⟩ := kv
    cases k1 with
    | coins t =>
      have hll : legacyList ((DBKey.coins t, v1) :: rest) =
          (t, v1) :: legacyList rest := rfl
      rw [hll, List.map_cons, List.nodup_cons]
      refine ⟨?_, ih h.2⟩
      intro hmem
      obtain ⟨q, hq, hqe⟩ := List.mem_map.mp hmem
      apply h.1
      obtain ⟨q1, q2⟩ := q
      have hrest : (DBKey.coins q1, q2) ∈ rest := mem_legacyList.mp hq
      simp only at hqe
      rw [hqe] at hrest
      exact List.mem_map.mpr ⟨(.coins t, q2), hrest, rfl⟩
    | bestBlock => exact ih h.2
    | headBlocks => exact ih h.2
    | coin o => exact ih h.2

theorem mem_modernKeys {st : Store} {o : COutPoint} :
    o ∈ modernKeys st ↔ ∃ v, (DBKey.coin o, v) ∈ st := by
  unfold modernKeys
  rw [List.mem_filterMap]
  constructor
  · rintro ⟨kv, hkv, hf⟩
    obtain ⟨k1, v1⟩ := kv
    cases k1 with
    | coin o' =>
      simp only at hf
      injection hf with hf1
      rw [← hf1]
      exact ⟨v1, hkv⟩
    | bestBlock => cases hf
    | headBlocks => cases hf
    | coins t => cases hf
  · rintro ⟨v, hv⟩
    exact ⟨(.coin o, v), hv, rfl⟩

theorem modernKeys_nodup {st : Store} (h : (st.map Prod.fst).Nodup) :
    (modernKeys st).Nodup := by
  induction st with
  | nil => simp [modernKeys]
  | cons kv rest ih =>
    rw [List.map_cons, List.nodup_cons] at h
    obtain ⟨k1, v1⟩ := kv
    cases k1 with
    | coin o =>
      have hmk : modernKeys ((DBKey.coin o, v1) :: rest) =
          o :: modernKeys rest := rfl
      rw [hmk, List.nodup_cons]
      refine ⟨?_, ih h.2⟩
      intro hmem
      obtain ⟨v, hv⟩ := mem_modernKeys.mp hmem
      apply h.1
      exact List.mem_map.mpr ⟨(.coin o, v), hv, rfl⟩
    | bestBlock => exact ih h.2
    | headBlocks => exact ih h.2
    | coins t => exact ih h.2

theorem Store.keys_eraseKey_sublist (s : Store) (k : DBKey) :
    ((s.eraseKey k).map Prod.fst).Sublist (s.map Prod.fst) := by
  induction s with
  | nil => exact List.Sublist.refl _
  | cons kv rest ih =>
    rw [Store.eraseKey]
    by_cases hk : kv.1 = k
    · rw [if_pos hk, List.map_cons]
      exact ih.cons _
    · rw [if_neg hk, List.map_cons, List.map_cons]
      exact ih.cons₂ _

theorem Store.not_mem_keys_eraseKey (s : Store) (k : DBKey) :
    k ∉ (s.eraseKey k).map Prod.fst := by
  intro hmem
  obtain ⟨kv, hkv, hkve⟩ := List.mem_map.mp hmem
  obtain ⟨k1, v1⟩ := kv
  simp only at hkve
  rw [hkve] at hkv
  have h1 := Store.read_isSome_of_mem hkv
  rw [Store.read_eraseKey_self] at h1
  cases h1

theorem keys_nodup_applyOp {s : Store} (h : (s.map Prod.fst).Nodup)
    (op : DBOp) : ((applyOp s op).map Prod.fst).Nodup := by
  cases op with
  | write k v =>
    show (((k, v) :: s.eraseKey k).map Prod.fst).Nodup
    rw [List.map_cons, List.nodup_cons]
    exact ⟨Store.not_mem_keys_eraseKey s k,
      h.sublist (Store.keys_eraseKey_sublist s k)⟩
  | erase k => exact h.sublist (Store.keys_eraseKey_sublist s k)

theorem keys_nodup_applyBatch {s : Store} (h : (s.map Prod.fst).Nodup)
    (ops : List DBOp) : ((applyBatch s ops).map Prod.fst).Nodup := by
  induction ops generalizing s with
  | nil => exact h
  | cons op rest ih =>
    show (((applyBatch (applyOp s op) rest)).map Prod.fst).Nodup
    exact ih (keys_nodup_applyOp h op)

theorem migEntries_keys_nodup {L : List (Nat × DBValue)}
    (h : (L.map Prod.fst).Nodup) : ((migEntries L).map Prod.fst).Nodup := by
  induction L with
  | nil => simp [migEntries]
  | cons q rest ih =>
    obtain ⟨t, v⟩ := q
    rw [List.map_cons, List.nodup_cons] at h
    have hmig : migEntries ((t, v) :: rest) =
        recEntriesOf (t, v) ++ migEntries rest := rfl
    rw [hmig, List.map_append, List.nodup_append]
    refine ⟨?_, ih h.2, ?_⟩
    · cases v with
      | legacyVal cc =>
        simp only [recEntriesOf]
        exact voutEntries_keys_nodup t cc cc.vout 0
      | hash n => simp [recEntriesOf]
      | hashList l => simp [recEntriesOf]
      | coinVal c => simp [recEntriesOf]
    · intro x hxl hxr
      obtain ⟨q1, hq1, hq1e⟩ := List.mem_map.mp hxl
      obtain ⟨q2, hq2, hq2e⟩ := List.mem_map.mp hxr
      have hq1hash : q1.1.hash = t := by
        cases v with
        | legacyVal cc =>
          simp only [recEntriesOf] at hq1
          exact (voutEntries_key t cc cc.vout 0 q1 hq1).1
        | hash n => simp [recEntriesOf] at hq1
        | hashList l => simp [recEntriesOf] at hq1
        | coinVal c => simp [recEntriesOf] at hq1
      obtain ⟨o2, c2⟩ := q2
      obtain ⟨cc', hcc'mem, -⟩ := mem_migEntries.mp hq2
      apply h.1
      rw [← hq1e] at hq2e
      have h5 : o2.hash = q1.1.hash := congrArg COutPoint.hash hq2e
      have hhash : o2.hash = t := by
        rw [h5]
        exact hq1hash
      rw [hhash] at hcc'mem
      exact List.mem_map.mpr ⟨(t, .legacyVal cc'), hcc'mem, rfl⟩

/-- C5: with no shutdown request, migrating a database whose legacy
table is well-typed, whose keys are unique and whose modern table is
empty succeeds; afterwards the legacy table is empty and the modern
table holds exactly the migrated records — one record per spendable
output of each legacy record, keyed by (transaction hash, output index)
— so the number of modern records is the total number of spendable
legacy outputs; and on a database with no legacy keys, `Upgrade`
returns success immediately and leaves the store untouched. -/
theorem C5_migration_completeness (se : List DBOp → Nat) (st : Store)
    (hwt : ∀ q ∈ legacyList st, q.2.isLegacy = true)
    (hnodup : (st.map Prod.fst).Nodup)
    (hmod : ∀ o : COutPoint, st.read (.coin o) = none) :
    (Upgrade se none st).2 = true ∧
    (∀ t, (Upgrade se none st).1.read (.coins t) = none) ∧
    (∀ o, (Upgrade se none st).1.read (.coin o) =
      (migLookup (sortedLegacy st) o).map DBValue.coinVal) ∧
    (modernKeys (Upgrade se none st).1).length =
      ((legacyList st).map (fun q => spendCount q.2)).sum ∧
    (legacyList st = [] → Upgrade se none st = (st, true)) := by
  have hup := Upgrade_no_shutdown se st hwt
  have hLwt : ∀ q ∈ sortedLegacy st, q.2.isLegacy = true :=
    fun q hq => hwt q ((sortedLegacy_perm st).mem_iff.mp hq)
  have hLkeys : ((sortedLegacy st).map Prod.fst).Nodup := by
    have hperm := (sortedLegacy_perm st).map Prod.fst
    exact hperm.nodup_iff.mpr (legacy_keys_nodup hnodup)
  have hst1 : (Upgrade se none st).1 =
      applyBatch st (allMigOps (sortedLegacy st)) := by
    rw [hup]
  have hread3 : ∀ o, (Upgrade se none st).1.read (.coin o) =
      (migLookup (sortedLegacy st) o).map DBValue.coinVal := by
    intro o
    rw [hst1, read_applyBatch, effectOn_allMigOps_coin hLkeys]
    cases hml : migLookup (sortedLegacy st) o with
    | some c => rfl
    | none =>
      rw [hmod o]
      rfl
  refine ⟨by rw [hup], ?_, hread3, ?_, ?_⟩
  · intro t
    rw [hst1, read_applyBatch]
    by_cases hex : ∃ v, (t, v) ∈ sortedLegacy st
    · obtain ⟨v, hv⟩ := hex
      have hleg := hLwt (t, v) hv
      cases v with
      | legacyVal cc => rw [effectOn_allMigOps_coins_mem hv]; rfl
      | hash n => simp [DBValue.isLegacy] at hleg
      | hashList l => simp [DBValue.isLegacy] at hleg
      | coinVal c => simp [DBValue.isLegacy] at hleg
    · rw [effectOn_allMigOps_coins_not_mem (fun v hv => hex ⟨v, hv⟩)]
      cases hr : st.read (.coins t) with
      | none => rfl
      | some v =>
        exfalso
        apply hex
        refine ⟨v, (sortedLegacy_perm st).mem_iff.mpr ?_⟩
        exact mem_legacyList.mpr (Store.read_eq_some_mem hr)
  · have hmemiff : ∀ o, o ∈ modernKeys (Upgrade se none st).1 ↔
        o ∈ (migEntries (sortedLegacy st)).map Prod.fst := by
      intro o
      rw [mem_modernKeys]
      constructor
      · rintro ⟨v, hv⟩
        have hsome := Store.read_isSome_of_mem hv
        rw [hread3 o] at hsome
        cases hml : migLookup (sortedLegacy st) o with
        | none => rw [hml] at hsome; cases hsome
        | some c =>
          unfold migLookup at hml
          cases hfind : (migEntries (sortedLegacy st)).find?
              (fun q => decide (q.1 = o)) with
          | none => rw [hfind] at hml; cases hml
          | some q₀ =>
            have hq₀o : q₀.1 = o := by
              have := List.find?_some hfind
              simpa using this
            exact List.mem_map.mpr ⟨q₀, List.mem_of_find?_eq_some hfind, hq₀o⟩
      · intro hmem
        obtain ⟨q, hq, hqe⟩ := List.mem_map.mp hmem
        have hfindsome : ((migEntries (sortedLegacy st)).find?
            (fun q => decide (q.1 = o))).isSome = true := by
          rw [List.find?_isSome]
          exact ⟨q, hq, by simp [hqe]⟩
        have hmlsome : (migLookup (sortedLegacy st) o).isSome = true := by
          unfold migLookup
          cases hfind : (migEntries (sortedLegacy st)).find?
              (fun q => decide (q.1 = o)) with
          | none => rw [hfind] at hfindsome; cases hfindsome
          | some q₀ => rfl
        have hreadsome : (((Upgrade se none st).1).read (.coin o)).isSome = true := by
          rw [hread3 o]
          cases hml : migLookup (sortedLegacy st) o with
          | none => rw [hml] at hmlsome; cases hmlsome
          | some c => rfl
        cases hr : ((Upgrade se none st).1).read (.coin o) with
        | none => rw [hr] at hreadsome; cases hreadsome
        | some v => exact ⟨v, Store.read_eq_some_mem hr⟩
    have hn1 : (modernKeys (Upgrade se none st).1).Nodup := by
      apply modernKeys_nodup
      rw [hst1]
      exact keys_nodup_applyBatch hnodup _
    have hn2 : ((migEntries (sortedLegacy st)).map Prod.fst).Nodup :=
      migEntries_keys_nodup hLkeys
    have hperm := (List.perm_ext_iff_of_nodup hn1 hn2).mpr hmemiff
    rw [hperm.length_eq, List.length_map]
    unfold migEntries
    rw [List.length_flatMap]
    have hmapeq : List.map (List.length ∘ recEntriesOf) (sortedLegacy st) =
        (sortedLegacy st).map (fun q => spendCount q.2) := by
      apply List.map_congr_left
      intro q _
      obtain ⟨t, v⟩ := q
      cases v with
      | legacyVal cc =>
        simp only [Function.comp, recEntriesOf, spendCount]
        exact voutEntries_length t cc cc.vout 0
      | hash n => rfl
      | hashList l => rfl
      | coinVal c => rfl
    rw [hmapeq]
    exact ((sortedLegacy_perm st).map (fun q => spendCount q.2)).sum_eq
  · intro hempty
    have hsl : sortedLegacy st = [] := by
      unfold sortedLegacy
      rw [hempty]
      rfl
    simp [Upgrade, hsl]

/-! ## C7: coin-key decoding -/

theorem readVarIntAux_isSome (bs : List Nat) :
    ∀ acc, (readVarIntAux bs acc).isSome =
      bs.any (fun b => decide (b < 128)) := by
  induction bs with
  | nil => intro acc; rfl
  | cons b rest ih =>
    intro acc
    simp only [readVarIntAux, List.any_cons]
    by_cases hb : b < 128
    · simp [hb]
    · simp [hb, ih]

/-- C7 counterexample: a byte string whose leading discriminator byte is
'B' (66), not the coin discriminator 'C' (67), decodes successfully —
`CoinEntry::Unserialize` performs no discriminator check. -/
theorem C7_counterexample :
    CoinEntry.Unserialize (66 :: (List.replicate 32 0 ++ [5])) =
      some (⟨66, ⟨0, 5⟩⟩, []) ∧ 66 ≠ DB_COIN := by
  refine ⟨?_, by decide⟩
  rfl

/-- C7 (amended): `CoinEntry::Unserialize` fails exactly on truncated
input — a missing discriminator byte, fewer than 32 hash bytes, or a
variable-length index that never terminates within the input; it
accepts any discriminator byte, storing it verbatim as the entry's key
(the coin-table check against 'C' happens in the cursor layer, not in
the decoder). -/
theorem C7_coin_key_decode (bs : List Nat) :
    ((CoinEntry.Unserialize bs).isSome = true ↔
      33 ≤ bs.length ∧
        (bs.drop 33).any (fun b => decide (b < 128)) = true) ∧
    (∀ entry rest, CoinEntry.Unserialize bs = some (entry, rest) →
      bs.head? = some entry.key) := by
  constructor
  · cases bs with
    | nil => simp [CoinEntry.Unserialize]
    | cons k rest =>
      by_cases h32 : 32 ≤ rest.length
      · have hlen : 33 ≤ (k :: rest).length := by
          simp only [List.length_cons]
          omega
        have hdrop : (k :: rest).drop 33 = rest.drop 32 := rfl
        have hiff := readVarIntAux_isSome (rest.drop 32) 0
        simp only [CoinEntry.Unserialize, if_pos h32, hdrop]
        cases hv : readVarInt (rest.drop 32) with
        | some nr =>
          obtain ⟨n, r2⟩ := nr
          unfold readVarInt at hv
          rw [hv] at hiff
          constructor
          · intro _
            exact ⟨hlen, hiff.symm⟩
          · intro _
            rfl
        | none =>
          unfold readVarInt at hv
          rw [hv] at hiff
          constructor
          · intro hcontra
            cases hcontra
          · intro hand
            rw [← hiff] at hand
            cases hand.2
      · have hlen : ¬ 33 ≤ (k :: rest).length := by
          simp only [List.length_cons]
          omega
        simp [CoinEntry.Unserialize, h32, hlen]
  · intro entry rest' hdec
    cases bs with
    | nil => cases hdec
    | cons k rest =>
      simp only [CoinEntry.Unserialize] at hdec
      by_cases h32 : 32 ≤ rest.length
      · rw [if_pos h32] at hdec
        cases hv : readVarInt (rest.drop 32) with
        | none =>
          rw [hv] at hdec
          cases hdec
        | some nr =>
          rw [hv] at hdec
          obtain ⟨n, r2⟩ := nr
          injection hdec with h0
          injection h0 with ha hb
          rw [List.head?_cons, ← ha]
      · rw [if_neg h32] at hdec
        cases hdec

/-! ## C9: loaded-coin file round trip -/

theorem Overlay.keys_put_subset (k : Nat) (c : LoadedCoin) :
    ∀ (ov : Overlay), ∀ x ∈ (ov.put k c).map Prod.fst,
      x = k ∨ x ∈ ov.map Prod.fst := by
  intro ov
  induction ov with
  | nil =>
    intro x hx
    simp [Overlay.put] at hx
    exact Or.inl hx
  | cons y ys ih =>
    intro x hx
    rw [Overlay.put] at hx
    by_cases h1 : k < y.1
    · rw [if_pos h1] at hx
      simp only [List.map_cons, List.mem_cons] at hx ⊢
      tauto
    · rw [if_neg h1] at hx
      by_cases h2 : k = y.1
      · rw [if_pos h2] at hx
        simp only [List.map_cons, List.mem_cons] at hx ⊢
        tauto
      · rw [if_neg h2] at hx
        simp only [List.map_cons, List.mem_cons] at hx ⊢
        rcases hx with hx | hx
        · tauto
        · rcases ih x hx with hx' | hx' <;> tauto

theorem Overlay.put_sorted {ov : Overlay} (hs : Overlay.Sorted ov)
    (k : Nat) (c : LoadedCoin) : Overlay.Sorted (ov.put k c) := by
  induction ov with
  | nil =>
    simp [Overlay.put, Overlay.Sorted]
  | cons y ys ih =>
    have hy := hs
    rw [Overlay.Sorted, List.pairwise_cons] at hy
    obtain ⟨hylt, hys⟩ := hy
    rw [Overlay.put]
    by_cases h1 : k < y.1
    · rw [if_pos h1]
      rw [Overlay.Sorted, List.pairwise_cons]
      refine ⟨?_, hs⟩
      intro a ha
      rcases List.mem_cons.mp ha with rfl | ha'
      · exact h1
      · exact lt_trans h1 (hylt a ha')
    · rw [if_neg h1]
      by_cases h2 : k = y.1
      · rw [if_pos h2]
        rw [Overlay.Sorted, List.pairwise_cons]
        refine ⟨?_, hys⟩
        intro a ha
        rw [h2]
        exact hylt a ha
      · rw [if_neg h2]
        rw [Overlay.Sorted, List.pairwise_cons]
        refine ⟨?_, ih hys⟩
        intro a ha
        obtain ⟨a1, a2⟩ := a
        have hk : y.1 < k := by omega
        rcases Overlay.keys_put_subset k c ys (a1, a2).1
            (List.mem_map.mpr ⟨(a1, a2), ha, rfl⟩) with h | h
        · have h' : a1 = k := h
          show y.1 < a1
          rw [h']
          exact hk
        · obtain ⟨b, hb, hbe⟩ := List.mem_map.mp h
          have hyb := hylt b hb
          have h' : b.1 = a1 := hbe
          show y.1 < a1
          rw [← h']
          exact hyb

theorem Overlay.mem_put_of_not_mem {ov : Overlay} {k : Nat}
    (hk : k ∉ ov.map Prod.fst) (c : LoadedCoin) :
    ∀ x, x ∈ ov.put k c ↔ x = (k, c) ∨ x ∈ ov := by
  induction ov with
  | nil =>
    intro x
    simp [Overlay.put]
  | cons y ys ih =>
    intro x
    rw [List.map_cons] at hk
    have hk1 : k ≠ y.1 := fun hc => hk (List.mem_cons.mpr (Or.inl hc))
    have hk2 : k ∉ ys.map Prod.fst := fun hc => hk (List.mem_cons.mpr (Or.inr hc))
    rw [Overlay.put]
    by_cases h1 : k < y.1
    · rw [if_pos h1]
      simp only [List.mem_cons]
    · rw [if_neg h1, if_neg hk1]
      simp only [List.mem_cons]
      rw [ih hk2]
      tauto

theorem WriteLoadedCoinIndex_mem (hf : COutPoint → Nat) :
    ∀ (coins : List LoadedCoin) (ov : Overlay), Overlay.Sorted ov →
      (∀ c ∈ coins, hf c.out ∉ ov.map Prod.fst) →
      (coins.map (fun c => hf c.out)).Nodup →
      (Overlay.Sorted (WriteLoadedCoinIndex hf ov coins) ∧
        ∀ x, x ∈ WriteLoadedCoinIndex hf ov coins ↔
          x ∈ ov ∨ ∃ c ∈ coins, x = (hf c.out, c)) := by
  intro coins
  induction coins with
  | nil =>
    intro ov hs _ _
    exact ⟨hs, fun x => by simp [WriteLoadedCoinIndex]⟩
  | cons c crest ih =>
    intro ov hs hkeys hnodup
    rw [List.map_cons, List.nodup_cons] at hnodup
    have hck : hf c.out ∉ ov.map Prod.fst :=
      hkeys c (List.mem_cons_self _ _)
    have hstep : WriteLoadedCoinIndex hf ov (c :: crest) =
        WriteLoadedCoinIndex hf (ov.put (hf c.out) c) crest := rfl
    have hput_sorted := Overlay.put_sorted hs (hf c.out) c
    have hput_mem := Overlay.mem_put_of_not_mem hck c
    have hkeys' : ∀ c' ∈ crest, hf c'.out ∉ (ov.put (hf c.out) c).map Prod.fst := by
      intro c' hc' hmem
      rcases Overlay.keys_put_subset (hf c.out) c ov _ hmem with h | h
      · exact hnodup.1 (h ▸ List.mem_map.mpr ⟨c', hc', rfl⟩)
      · exact hkeys c' (List.mem_cons_of_mem c hc') h
    obtain ⟨hsorted, hmem⟩ := ih (ov.put (hf c.out) c) hput_sorted hkeys' hnodup.2
    rw [hstep]
    refine ⟨hsorted, ?_⟩
    intro x
    rw [hmem x, hput_mem x]
    constructor
    · rintro ((hx | hx) | ⟨c', hc', hx⟩)
      · exact Or.inr ⟨c, List.mem_cons_self _ _, hx⟩
      · exact Or.inl hx
      · exact Or.inr ⟨c', List.mem_cons_of_mem c hc', hx⟩
    · rintro (hx | ⟨c', hc', hx⟩)
      · exact Or.inl (Or.inr hx)
      · rcases List.mem_cons.mp hc' with rfl | hc''
        · exact Or.inl (Or.inl hx)
        · exact Or.inr ⟨c', hc'', hx⟩

theorem readLoadedCoinsLoop_eq (hf : COutPoint → Nat) (bs : Nat) :
    ∀ (remaining : Nat) (i : Nat) (recs vec : List LoadedCoin) (ov : Overlay),
      remaining ≤ recs.length →
      readLoadedCoinsLoop hf bs remaining i recs vec ov =
        (WriteLoadedCoinIndex hf ov (vec ++ recs.take remaining), true) := by
  intro remaining
  induction remaining with
  | zero =>
    intro i recs vec ov _
    simp [readLoadedCoinsLoop]
  | succ rem ih =>
    intro i recs vec ov hlen
    cases recs with
    | nil => simp at hlen
    | cons r rest =>
      simp only [readLoadedCoinsLoop, List.take_succ_cons]
      have hfoldsplit : ∀ (v1 v2 : List LoadedCoin) (o : Overlay),
          WriteLoadedCoinIndex hf (WriteLoadedCoinIndex hf o v1) v2 =
            WriteLoadedCoinIndex hf o (v1 ++ v2) := by
        intro v1 v2 o
        unfold WriteLoadedCoinIndex
        rw [List.foldl_append]
      have hlen' : rem ≤ rest.length := by
        simp only [List.length_cons] at hlen
        omega
      by_cases hi : i % bs = 0
      · rw [if_pos hi]
        show readLoadedCoinsLoop hf bs rem (i + 1) rest ([] ++ [r])
            (WriteLoadedCoinIndex hf ov vec) = _
        rw [ih (i + 1) rest ([] ++ [r]) (WriteLoadedCoinIndex hf ov vec) hlen',
          List.nil_append, hfoldsplit vec ([r] ++ rest.take rem) ov,
          List.singleton_append]
      · rw [if_neg hi]
        show readLoadedCoinsLoop hf bs rem (i + 1) rest (vec ++ [r]) ov = _
        rw [ih (i + 1) rest (vec ++ [r]) ov hlen', List.append_assoc,
          List.singleton_append]

/-- C9: exporting a set of loaded-coin records with the versioned writer
and re-importing the produced file into a fresh overlay yields exactly
the same set of (outpoint, coin, spent-flag) records, for every
positive import batch size — including the empty set, for which no file is
produced and the import leaves the fresh overlay empty; re-reading the
file with `ReadMyLoadedCoins` also returns the original records. -/
theorem C9_loaded_coin_file_round_trip (hf : COutPoint → Nat)
    (clientVersion : Int) (batchSize : Nat) (coins : List LoadedCoin)
    (hcv : 210000 ≤ clientVersion) (hbs : 0 < batchSize)
    (hnodup : (coins.map (fun c => hf c.out)).Nodup) :
    (∀ lc, lc ∈ ((ReadLoadedCoins hf clientVersion batchSize []
          (WriteMyLoadedCoins clientVersion coins)).1).map (fun kv => kv.2) ↔
        lc ∈ coins) ∧
    ReadMyLoadedCoins clientVersion (WriteMyLoadedCoins clientVersion coins) =
      coins := by
  by_cases hcnil : coins = []
  · subst hcnil
    constructor
    · intro lc
      simp [WriteMyLoadedCoins, ReadLoadedCoins]
    · simp [WriteMyLoadedCoins, ReadMyLoadedCoins]
  · have hne : coins.length ≠ 0 := fun h => hcnil (List.eq_nil_of_length_eq_zero h)
    have hfile : WriteMyLoadedCoins clientVersion coins =
        some ⟨210000, clientVersion, coins.length, coins⟩ := by
      unfold WriteMyLoadedCoins
      rw [if_neg hne]
    have hver : ¬ ((210000 : Int) > clientVersion) := not_lt.mpr hcv
    have hov : (ReadLoadedCoins hf clientVersion batchSize []
        (WriteMyLoadedCoins clientVersion coins)).1 =
        WriteLoadedCoinIndex hf [] coins := by
      rw [hfile]
      show (if (210000 : Int) > clientVersion then (([] : Overlay), false)
            else readLoadedCoinsLoop hf batchSize coins.length 0 coins [] []).1 = _
      rw [if_neg hver, readLoadedCoinsLoop_eq hf batchSize coins.length 0 coins
        [] [] (le_refl _), List.nil_append, List.take_length]
    obtain ⟨hsort, hmem⟩ := WriteLoadedCoinIndex_mem hf coins []
      (by simp [Overlay.Sorted]) (by simp) hnodup
    constructor
    · intro lc
      rw [hov]
      constructor
      · intro hlc
        obtain ⟨kv, hkv, hkve⟩ := List.mem_map.mp hlc
        rcases (hmem kv).mp hkv with hnilmem | ⟨c', hc', hkveq⟩
        · cases hnilmem
        · rw [← hkve, hkveq]
          exact hc'
      · intro hlc
        apply List.mem_map.mpr
        exact ⟨(hf lc.out, lc), (hmem _).mpr (Or.inr ⟨lc, hlc, rfl⟩), rfl⟩
    · rw [hfile]
      show (if (210000 : Int) > clientVersion then []
            else coins.take coins.length) = coins
      rw [if_neg hver, List.take_length]

/-! ## Witness theorems -/

/-- Witness for C1 at a concrete commit whose batch threshold 2 forces
an intermediate flush. -/
theorem C1_commit_tip_ordering_and_invariant_witness :
    batchWriteParts List.length 2 wStore wMap 9 = .ok wParts ∧
    (steadyState wStore ∨ transitionalState wStore) ∧
    (((wParts.flushed ++ [wParts.finalBatch]).flatten =
        tipTransOps 9 wParts.oldTip ++
          (drainOps wMap ++ tipSteadyOps 9) ∧
      allCoinMut (drainOps wMap)) ∧
    (∃ t, wParts.finalBatch = t ++ tipSteadyOps 9) ∧
    (∃ t, (wParts.flushed ++ [wParts.finalBatch]).head? =
        some (tipTransOps 9 wParts.oldTip ++ t)) ∧
    (∀ pre suf, wParts.flushed ++ [wParts.finalBatch] = pre ++ suf →
      steadyState (applySeq wStore pre) ∨
        transitionalState (applySeq wStore pre))) :=
  ⟨rfl, Or.inl ⟨⟨5, rfl⟩, rfl⟩,
    C1_commit_tip_ordering_and_invariant List.length 2 wStore wMap 9 wParts rfl
      (Or.inl ⟨⟨5, rfl⟩, rfl⟩)⟩

/-- Witness for C2 (amended): spending (2,0) while the overlay holds a
spent record for its hash. -/
theorem C2_spend_removes_visibility_witness :
    BatchWrite (fun _ => true) List.length 100 wStore2 wSpendMap 9 =
      .ok ([(.bestBlock, .hash 9)], [], true) ∧
    (⟨2, 0⟩, (⟨wSpentCoin, true⟩ : CacheEntry)) ∈ wSpendMap ∧
    Overlay.Sorted wOverlay ∧
    ((HaveCoin wHf [(.bestBlock, .hash 9)] wOverlay ⟨2, 0⟩ = true ↔
        ∃ lc, (wHf ⟨2, 0⟩, lc) ∈ wOverlay) ∧
      ((GetCoin wHf [(.bestBlock, .hash 9)] wOverlay ⟨2, 0⟩ wLiveCoin).1 = true ↔
        ∃ lc, (wHf ⟨2, 0⟩, lc) ∈ wOverlay ∧ lc.fSpent = false)) :=
  ⟨rfl, by decide, by decide,
    C2_spend_removes_visibility wHf List.length 100 wStore2
      [(.bestBlock, .hash 9)] wOverlay wSpendMap 9 [] true ⟨2, 0⟩
      ⟨wSpentCoin, true⟩ wLiveCoin rfl (by decide) rfl rfl rfl (by decide)
      (by decide)⟩

/-- Witness for C3 on the sample overlay. -/
theorem C3_two_tier_lookup_witness :
    Overlay.Sorted wOverlay ∧
    ((∀ c coin₀, Store.read [] (.coin ⟨1, 0⟩) = some (.coinVal c) →
        GetCoin wHf [] wOverlay ⟨1, 0⟩ coin₀ = (true, c)) ∧
      (Store.read [] (.coin ⟨1, 0⟩) = none →
        (∀ lc coin₀, (wHf ⟨1, 0⟩, lc) ∈ wOverlay →
            GetCoin wHf [] wOverlay ⟨1, 0⟩ coin₀ =
              (!lc.fSpent, { lc.coin with fLoaded := true })) ∧
        (∀ coin₀, (∀ lc, (wHf ⟨1, 0⟩, lc) ∉ wOverlay) →
            GetCoin wHf [] wOverlay ⟨1, 0⟩ coin₀ = (false, coin₀)))) :=
  ⟨by decide, C3_two_tier_lookup wHf [] wOverlay ⟨1, 0⟩ (by decide)⟩

/-- Witness for C4 (amended): after the commit the residual changeset is
exactly the loaded entries. -/
theorem C4_changeset_drained_except_loaded_witness :
    BatchWrite (fun _ => true) List.length 100 wStore wMap 9 =
      .ok wCommitResult ∧
    wCommitResult.2.1 = wMap.filter (fun e => e.2.coin.fLoaded) :=
  ⟨rfl, C4_changeset_drained_except_loaded (fun _ => true) List.length 100
    wStore wMap 9 wCommitResult.1 wCommitResult.2.1 wCommitResult.2.2 rfl⟩

/-- Witness for C5 on a two-record legacy store. -/
theorem C5_migration_completeness_witness :
    (∀ q ∈ legacyList wLegacyStore, q.2.isLegacy = true) ∧
    (List.map Prod.fst wLegacyStore).Nodup ∧
    ((Upgrade List.length none wLegacyStore).2 = true ∧
      (∀ t, (Upgrade List.length none wLegacyStore).1.read (.coins t) = none) ∧
      (∀ o, (Upgrade List.length none wLegacyStore).1.read (.coin o) =
        (migLookup (sortedLegacy wLegacyStore) o).map DBValue.coinVal) ∧
      (modernKeys (Upgrade List.length none wLegacyStore).1).length =
        ((legacyList wLegacyStore).map (fun q => spendCount q.2)).sum ∧
      (legacyList wLegacyStore = [] →
        Upgrade List.length none wLegacyStore = (wLegacyStore, true))) :=
  ⟨by decide, by decide,
    C5_migration_completeness List.length wLegacyStore (by decide) (by decide)
      (fun o => rfl)⟩

/-- Witness for C6: shutdown after the first record of the sample
legacy store. -/
theorem C6_migration_cancellation_witness :
    (∀ q ∈ legacyList wLegacyStore, q.2.isLegacy = true) ∧
    1 ≤ (sortedLegacy wLegacyStore).length ∧
    Upgrade List.length (some 1) wLegacyStore =
      (applyBatch wLegacyStore
        (allMigOps ((sortedLegacy wLegacyStore).take 1)), false) :=
  ⟨by decide, by decide,
    C6_migration_cancellation List.length wLegacyStore 1 (by decide)
      (le_refl 1) (by decide)⟩

/-- Witness for C7 (amended) on a well-formed coin-key byte string. -/
theorem C7_coin_key_decode_witness :
    wBytes.head? = some (67 : Nat) ∧
    ((CoinEntry.Unserialize wBytes).isSome = true ↔
      33 ≤ wBytes.length ∧
        (wBytes.drop 33).any (fun b => decide (b < 128)) = true) :=
  ⟨(C7_coin_key_decode wBytes).2 ⟨67, ⟨0, 5⟩⟩ [] rfl,
    (C7_coin_key_decode wBytes).1⟩

/-- Witness for C8 at a concrete commit. -/
theorem C8_commit_failure_modes_witness :
    BatchWrite (fun _ => true) List.length 100 wStore wMap 0 =
      .error .nullHash ∧
    batchWriteParts List.length 100 wStore wMap 9 = .ok wParts100 ∧
    (wCommitResult.2.2 = false ↔
      (fun _ => true) wParts100.finalBatch = false) :=
  ⟨(C8_commit_failure_modes (fun _ => true) List.length 100).1 wStore wMap,
   rfl,
   (C8_commit_failure_modes (fun _ => true) List.length 100).2.2 wStore wMap 9
     wParts100 wCommitResult rfl rfl⟩

/-- Witness for C9 on a two-record coin set with import batch size 1. -/
theorem C9_loaded_coin_file_round_trip_witness :
    ((210000 : Int) ≤ 210000 ∧ 0 < 1 ∧
      (wCoins.map (fun c => wHf c.out)).Nodup) ∧
    ((∀ lc, lc ∈ ((ReadLoadedCoins wHf 210000 1 []
          (WriteMyLoadedCoins 210000 wCoins)).1).map (fun kv => kv.2) ↔
        lc ∈ wCoins) ∧
      ReadMyLoadedCoins 210000 (WriteMyLoadedCoins 210000 wCoins) = wCoins) :=
  ⟨⟨le_refl _, by decide, by decide⟩,
    C9_loaded_coin_file_round_trip wHf 210000 1 wCoins (le_refl _) (by decide)
      (by decide)⟩

/-- Witness for C10: a spent overlay record for (2,0) clobbers the
caller's coin argument on a false return. -/
theorem C10_getcoin_out_param_clobbered_witness :
    Overlay.Sorted wOverlay ∧
    (wHf ⟨2, 0⟩, (⟨⟨2, 0⟩, wLiveCoin, true⟩ : LoadedCoin)) ∈ wOverlay ∧
    GetCoin wHf [] wOverlay ⟨2, 0⟩ wSpentCoin =
      (false, { wLiveCoin with fLoaded := true }) :=
  ⟨by decide, by decide,
    C10_getcoin_out_param_clobbered wHf [] wOverlay ⟨2, 0⟩
      ⟨⟨2, 0⟩, wLiveCoin, true⟩ wSpentCoin (by decide) rfl (by decide) rfl⟩

end TxDB

